import Mathlib

set_option maxHeartbeats 1000000
set_option maxRecDepth 8192

/-!
Verification of the ComposeBox text/markup engine.

The development embeds, over `List Char`, the pure core of the two
ComposeBox component variants: the HTML escaper, the 7TV emote URL
detector, the markup renderer, the editable-tree serializer, the
top-level content extraction, the emoji-query extraction of the richer
variant, and state-transition models of mention validation and of the
submission handler.  Strings are modelled as lists of characters;
machine DOM nodes are modelled by the closed node type the code
dispatches on.
-/

/-- Newline character, written by code point to keep literals uniform. -/
def nl : Char := Char.ofNat 10

/-- Apostrophe character (code point 39). -/
def apos : Char := Char.ofNat 39

/-- Concatenation map over a character list: the shape of a global
single-character regex replacement in JavaScript. -/
def cmap (f : Char → List Char) : List Char → List Char
  | [] => []
  | c :: cs => f c ++ cmap f cs

/-- One global replacement `value.replace(/pat/g, rep)` for a
single-character pattern: every occurrence of `pat` becomes `rep`,
every other character is kept. -/
def replaceChar (pat : Char) (rep : List Char) (cs : List Char) : List Char :=
  cmap (fun c => if c = pat then rep else [c]) cs

/-- Embedding of `escapeHtml` (ComposeBox.tsx lines 29 to 35): five
sequential global replacements, ampersand first, then the angle
brackets, the double quote and the apostrophe. -/
def escapeHtml (value : List Char) : List Char :=
  replaceChar apos "&#039;".data
    (replaceChar '"' "&quot;".data
      (replaceChar '>' "&gt;".data
        (replaceChar '<' "&lt;".data
          (replaceChar '&' "&amp;".data value))))

/-- Single-pass character translation that the sequential replacements
of `escapeHtml` are proved to implement. -/
def escChar (c : Char) : List Char :=
  if c = '&' then "&amp;".data
  else if c = '<' then "&lt;".data
  else if c = '>' then "&gt;".data
  else if c = '"' then "&quot;".data
  else if c = apos then "&#039;".data
  else [c]

/-- Character translation used by the renderer on text segments:
newline becomes an explicit break tag, every other character is
escaped. -/
def escBrChar (c : Char) : List Char :=
  if c = nl then "<br/>".data else escChar c

/-- Embedding of `escapeHtml(segment).replace(/\n/g, '<br/>')` as used
inside `renderContentHtml`. -/
def escapeAndBreak (cs : List Char) : List Char :=
  replaceChar nl "<br/>".data (escapeHtml cs)

/-- Consume an exact literal prefix from a character list, returning
the remainder on success. -/
def dropLit : List Char → List Char → Option (List Char)
  | [], cs => some cs
  | _ :: _, [] => none
  | p :: ps, c :: cs => if c = p then dropLit ps cs else none

/-- Boolean form of the literal-prefix test. -/
def startsWithLit (pat cs : List Char) : Bool :=
  (dropLit pat cs).isSome

/-- Greedy nonempty run of characters satisfying `p`, as matched by a
regex class with `+` whose follower is outside the class: returns the
maximal run and the remainder. -/
def many1P (p : Char → Bool) (cs : List Char) : Option (List Char × List Char) :=
  let run := cs.takeWhile p
  if run.isEmpty then none else some (run, cs.dropWhile p)

/-- ASCII letter or digit, the class `[A-Za-z0-9]` of the emote URL
regex. -/
def isAlnumAscii (c : Char) : Bool :=
  (('A' ≤ c && c ≤ 'Z') || ('a' ≤ c && c ≤ 'z') || ('0' ≤ c && c ≤ '9'))

/-- ASCII digit, the class `\d` of the emote URL regex. -/
def isDigitAscii (c : Char) : Bool :=
  ('0' ≤ c && c ≤ '9')

/-- The alternation `(?:webp|png|avif)` of the emote URL regex, tried
in source order; returns the consumed literal and the remainder. -/
def matchExt (cs : List Char) : Option (List Char × List Char) :=
  match dropLit "webp".data cs with
  | some r => some ("webp".data, r)
  | none =>
    match dropLit "png".data cs with
    | some r => some ("png".data, r)
    | none =>
      match dropLit "avif".data cs with
      | some r => some ("avif".data, r)
      | none => none

/-- Match of the emote URL regex after the `http` or `https` scheme
prefix: the literal host and path, the alphanumeric id, a slash, the
digit scale, `x.` and the extension.  Returns the consumed characters
and the remainder. -/
def matchAfterScheme (cs : List Char) : Option (List Char × List Char) :=
  match dropLit "://cdn.7tv.app/emote/".data cs with
  | none => none
  | some r1 =>
    match many1P isAlnumAscii r1 with
    | none => none
    | some (idRun, r2) =>
      match dropLit "/".data r2 with
      | none => none
      | some r3 =>
        match many1P isDigitAscii r3 with
        | none => none
        | some (digits, r4) =>
          match dropLit "x.".data r4 with
          | none => none
          | some r5 =>
            match matchExt r5 with
            | none => none
            | some (ext, r6) =>
              some ("://cdn.7tv.app/emote/".data ++ idRun ++ "/".data ++
                digits ++ "x.".data ++ ext, r6)

/-- Match of `emoteUrlRegex` (ComposeBox.tsx line 27) anchored at the
head of the input: `https?` with the greedy optional `s` tried first
and backtracked on failure, then the rest of the pattern.  Returns the
matched characters and the remainder. -/
def matchEmoteAt (cs : List Char) : Option (List Char × List Char) :=
  match dropLit "https".data cs with
  | some r2 =>
    match matchAfterScheme r2 with
    | some (m, rest) => some ("https".data ++ m, rest)
    | none =>
      match dropLit "http".data cs with
      | some r =>
        match matchAfterScheme r with
        | some (m, rest) => some ("http".data ++ m, rest)
        | none => none
      | none => none
  | none =>
    match dropLit "http".data cs with
    | some r =>
      match matchAfterScheme r with
      | some (m, rest) => some ("http".data ++ m, rest)
      | none => none
    | none => none

/-- Leftmost match of the emote URL regex, as found by `regex.exec`:
the unmatched prefix, the matched URL and the remainder after it. -/
def findEmote : List Char → Option (List Char × List Char × List Char)
  | [] => none
  | c :: rest =>
    match matchEmoteAt (c :: rest) with
    | some (m, r) => some ([], m, r)
    | none =>
      match findEmote rest with
      | some (pre, m, r) => some (c :: pre, m, r)
      | none => none

/-- The inline image markup emitted by `renderContentHtml` for a
matched emote URL (ComposeBox.tsx line 48). -/
def imgHtml (url : List Char) : List Char :=
  "<img data-emote-url=\"".data ++ url ++ "\" src=\"".data ++ url ++
    "\" alt=\"7TV emote\" style=\"height:1.5rem;width:1.5rem;display:inline-block;vertical-align:text-bottom;\" />".data

/-- The scan loop of `renderContentHtml` (ComposeBox.tsx lines 37 to
55), with an explicit fuel bounding the number of matches.  Each match
consumes at least one character, so a fuel of the input length makes
the fallback branch unreachable except on the empty remainder, where
it agrees with the match-free branch. -/
def renderLoop : Nat → List Char → List Char
  | 0, value => escapeAndBreak value
  | fuel + 1, value =>
    match findEmote value with
    | none => escapeAndBreak value
    | some (pre, m, r) => escapeAndBreak pre ++ imgHtml m ++ renderLoop fuel r

/-- Embedding of `renderContentHtml`: escape and break the text between
consecutive leftmost emote matches and emit an image tag for each
match. -/
def renderContentHtml (value : List Char) : List Char :=
  renderLoop value.length value

/-- A node of the editable surface, as dispatched on by
`serializeEditorContent`: a text node with its `textContent` (which the
DOM types as nullable), an element with its tag name, its optional
`data-emote-url` attribute and its child list, or a node of any other
node type (comment, and so on). -/
inductive DomNode where
  | text (textContent : Option (List Char)) : DomNode
  | element (tagName : String) (emoteUrl : Option (List Char)) (children : List DomNode) : DomNode
  | other : DomNode

mutual

/-- Embedding of `serializeEditorContent` (ComposeBox.tsx lines 57 to
85): text nodes contribute their text or the empty string, non-element
non-text nodes contribute nothing, `IMG` contributes its data
attribute or the empty string, `BR` contributes a newline, and any
other element contributes the concatenation of its children, with one
newline appended when its tag is `DIV` or `P`. -/
def serializeEditorContent : DomNode → List Char
  | .text c => c.getD []
  | .other => []
  | .element tag url children =>
    if tag = "IMG" then url.getD []
    else if tag = "BR" then [nl]
    else if tag = "DIV" ∨ tag = "P" then serializeChildren children ++ [nl]
    else serializeChildren children

/-- The child walk of `serializeEditorContent`: concatenation of the
contributions of a node list in order. -/
def serializeChildren : List DomNode → List Char
  | [] => []
  | n :: ns => serializeEditorContent n ++ serializeChildren ns

end

/-- Model of `nextValue.replace(/\n+$/, '')`: the leftmost match of
the anchored pattern is the maximal run of newlines that reaches the
end of the string, and it is removed; scanning from the left, the
first position from which every remaining character is a newline cuts
the string there. -/
def replaceNlRunAtEnd : List Char → List Char
  | [] => []
  | c :: rest =>
    if c = nl && rest.all (fun d => d == nl) then []
    else c :: replaceNlRunAtEnd rest

/-- Embedding of `updateContentFromEditor` (ComposeBox.tsx lines 125
to 137): concatenate the contributions of the direct children of the
editor root, then, when the result ends in a newline, remove the
trailing newline run. -/
def updateContentFromEditor (children : List DomNode) : List Char :=
  let nextValue := serializeChildren children
  if nextValue.getLast? = some nl then replaceNlRunAtEnd nextValue else nextValue

/-- Removal of every trailing newline, stated the way the spec states
it; used as the right-hand side of the round-trip and stripping
claims. -/
def stripTrailingNewlines (cs : List Char) : List Char :=
  (cs.reverse.dropWhile (fun c => c == nl)).reverse

/-- Decoding of one entity tail after an ampersand: the five entity
tails the escaper introduces, tried in a fixed order; returns the
decoded character and the remainder. -/
def decodeEntity (rest : List Char) : Option (Char × List Char) :=
  match dropLit "amp;".data rest with
  | some r => some ('&', r)
  | none =>
    match dropLit "lt;".data rest with
    | some r => some ('<', r)
    | none =>
      match dropLit "gt;".data rest with
      | some r => some ('>', r)
      | none =>
        match dropLit "quot;".data rest with
        | some r => some ('"', r)
        | none =>
          match dropLit "#039;".data rest with
          | some r => some (apos, r)
          | none => none

/-- Modelled from the spec: decoding of the five character entities the
escaper introduces, the inverse step the browser applies when markup
assigned to `innerHTML` is turned back into text nodes.  An ampersand
that opens no known entity stays literal.  Fuel bounds the number of
steps; the input length is always sufficient. -/
def unescapeFuel : Nat → List Char → List Char
  | 0, cs => cs
  | _ + 1, [] => []
  | fuel + 1, c :: rest =>
    if c = '&' then
      match decodeEntity rest with
      | some (d, r) => d :: unescapeFuel fuel r
      | none => '&' :: unescapeFuel fuel rest
    else c :: unescapeFuel fuel rest

/-- Entity decoding at adequate fuel. -/
def unescapeEntities (cs : List Char) : List Char :=
  unescapeFuel cs.length cs

/-- Modelled from the spec: the browser parse of the markup the
renderer emits, assigned to the editable root through `innerHTML`.
The renderer emits only entity-escaped text, `<br/>` tags and `<img>`
tags whose first attribute is `data-emote-url`, so the parse
recognises exactly these: a text run up to the next tag opener becomes
a text node with its entities decoded, `<br/>` becomes a `BR` element,
and an image tag becomes an `IMG` element carrying the attribute value
found between the first pair of quotes, with the rest of the tag
skipped up to its closing bracket.  Fuel bounds the number of nodes;
the input length is always sufficient. -/
def parseFuel : Nat → List Char → List DomNode
  | 0, _ => []
  | fuel + 1, cs =>
    match cs with
    | [] => []
    | c :: rest =>
      if c = '<' then
        match dropLit "br/>".data rest with
        | some r => .element "BR" none [] :: parseFuel fuel r
        | none =>
          match dropLit "img data-emote-url=\"".data rest with
          | some r =>
            let url := r.takeWhile (fun d => d ≠ '"')
            let afterUrl := r.dropWhile (fun d => d ≠ '"')
            let afterTag := afterUrl.dropWhile (fun d => d ≠ '>')
            .element "IMG" (some url) [] :: parseFuel fuel afterTag.tail
          | none => .text (some ['<']) :: parseFuel fuel rest
      else
        .text (some (unescapeEntities (cs.takeWhile (fun d => d ≠ '<')))) ::
          parseFuel fuel (cs.dropWhile (fun d => d ≠ '<'))

/-- Browser parse of rendered markup at adequate fuel. -/
def parseRenderedHtml (cs : List Char) : List DomNode :=
  parseFuel cs.length cs

mutual

/-- Reference serializer transcribed from the wording of the claim: a
text node contributes its literal text, an image node the URL of its
data attribute or the empty string, a line-break node a newline, a
`DIV` or `P` container the concatenation of its children followed by
one newline, and a node of any other kind the empty string. -/
def specSerializeClaim : DomNode → List Char
  | .text c => c.getD []
  | .element tag url children =>
    if tag = "IMG" then url.getD []
    else if tag = "BR" then [nl]
    else if tag = "DIV" ∨ tag = "P" then specSerializeClaimChildren children ++ [nl]
    else []
  | .other => []

/-- Child concatenation for the claim reference serializer. -/
def specSerializeClaimChildren : List DomNode → List Char
  | [] => []
  | n :: ns => specSerializeClaim n ++ specSerializeClaimChildren ns

end

mutual

/-- Reference serializer with the amended final bullet: an element of
any other tag contributes the concatenation of its children with no
newline appended, and only non-element non-text nodes contribute the
empty string. -/
def specSerializeAmended : DomNode → List Char
  | .text c => c.getD []
  | .element tag url children =>
    if tag = "IMG" then url.getD []
    else if tag = "BR" then [nl]
    else if tag = "DIV" ∨ tag = "P" then specSerializeAmendedChildren children ++ [nl]
    else specSerializeAmendedChildren children
  | .other => []

/-- Child concatenation for the amended reference serializer. -/
def specSerializeAmendedChildren : List DomNode → List Char
  | [] => []
  | n :: ns => specSerializeAmended n ++ specSerializeAmendedChildren ns

end

/-- The exact emote URL shape stated by the spec: `http` or `https`,
the fixed CDN host and path, a nonempty alphanumeric id, a slash, a
nonempty digit scale, `x.` and one of the three listed extensions. -/
def IsEmoteUrl (cs : List Char) : Prop :=
  ∃ (schemeS : Bool) (idRun digits ext : List Char),
    idRun ≠ [] ∧ idRun.all isAlnumAscii = true ∧
    digits ≠ [] ∧ digits.all isDigitAscii = true ∧
    (ext = "webp".data ∨ ext = "png".data ∨ ext = "avif".data) ∧
    cs = "http".data ++ (if schemeS then ['s'] else []) ++
      "://cdn.7tv.app/emote/".data ++ idRun ++ "/".data ++ digits ++
      "x.".data ++ ext

/-- A URL with the non-listed extension `jpg`, used as the plain-text
boundary example. -/
def jpgUrl : List Char := "https://cdn.7tv.app/emote/abc/1x.jpg".data

/-- A character drawn from the classes a matched emote URL is built
from; such characters need no escaping and close no tag or attribute. -/
def urlSafeChar (c : Char) : Bool :=
  isAlnumAscii c || c == ':' || c == '/' || c == '.'

/-- The result record an external send resolves with. -/
structure TxResult where
  id : List Char
  feeAmount : Nat
  feeKAS : List Char
deriving DecidableEq

/-- Outcome of the awaited `sendTransaction` call: a result record, a
falsy result, or a thrown failure carrying the message of an `Error`
instance when there is one. -/
inductive SendOutcome where
  | success : TxResult → SendOutcome
  | noResult : SendOutcome
  | failure : Option (List Char) → SendOutcome
deriving DecidableEq

/-- The component state the submission handler reads and writes. -/
structure ComposeState where
  content : List Char
  isSubmitting : Bool
  validatedMentions : List (List Char)
deriving DecidableEq

/-- A toast surfaced by the submission handler. -/
inductive Notification where
  | successToast : TxResult → Notification
  | errorToast : (description : List Char) → Notification
deriving DecidableEq

/-- JavaScript whitespace as tested by `trim`, restricted to the
common code points. -/
def isJsWhitespace (c : Char) : Bool :=
  c == Char.ofNat 32 || c == Char.ofNat 9 || c == nl || c == Char.ofNat 13 ||
    c == Char.ofNat 11 || c == Char.ofNat 12 || c == Char.ofNat 160 ||
    c == Char.ofNat 65279

/-- Model of `content.trim()`: whitespace removed from both ends. -/
def jsTrim (cs : List Char) : List Char :=
  ((cs.dropWhile isJsWhitespace).reverse.dropWhile isJsWhitespace).reverse

/-- The entry guard of `handlePost` (ComposeBox.tsx line 205):
`content.trim() && privateKey && !isSubmitting`. -/
def postGuard (privateKey : Option (List Char)) (st : ComposeState) : Bool :=
  !(jsTrim st.content).isEmpty && privateKey.isSome && !st.isSubmitting

/-- The synchronous prefix of `handlePost` up to and including the
invocation of the external send: when the guard passes, the in-flight
flag is raised and one send is started; otherwise nothing happens.
The second component counts external send invocations. -/
def handlePostEnter (privateKey : Option (List Char)) (st : ComposeState) :
    ComposeState × Nat :=
  if postGuard privateKey st then ({ st with isSubmitting := true }, 1)
  else (st, 0)

/-- The generic fallback description of the failure toast. -/
def unknownErrorMsg : List Char := "Unknown error occurred".data

/-- Embedding of one complete run of `handlePost` (ComposeBox.tsx
lines 204 to 253) with the awaited send resolved by `outcome`: when
the guard fails nothing happens; otherwise on a result record a
success toast is shown unless popups are hidden and the content is
cleared; on a falsy result or a thrown failure the content is kept,
and a failure raises an error toast whose description is the message
of the error or a generic fallback; the `finally` clause lowers the
in-flight flag on every path through the `try`.  The second component
collects the toasts, the third counts external send invocations. -/
def handlePost (privateKey : Option (List Char)) (hideTransactionPopup : Bool)
    (outcome : SendOutcome) (st : ComposeState) :
    ComposeState × List Notification × Nat :=
  if postGuard privateKey st then
    match outcome with
    | .success r =>
      ({ st with content := [], isSubmitting := false },
        (if hideTransactionPopup then [] else [.successToast r]), 1)
    | .noResult =>
      ({ st with isSubmitting := false }, [], 1)
    | .failure msg =>
      ({ st with isSubmitting := false },
        [.errorToast (msg.getD unknownErrorMsg)], 1)
  else (st, [], 0)

/-- The sequential validation loop of the mention effect (ComposeBox.tsx
lines 96 to 108): each candidate is resolved in order against the
external validator; resolutions that fail are dropped; the second
component counts validator invocations. -/
def validateMentionsLoop (validate : List Char → Option (List Char)) :
    List (List Char) → List (List Char) × Nat
  | [] => ([], 0)
  | m :: ms =>
    let r := validate m
    let rest := validateMentionsLoop validate ms
    (match r with
     | some pk => pk :: rest.1
     | none => rest.1, rest.2 + 1)

/-- Embedding of the mention effect (ComposeBox.tsx lines 95 to 115):
when the content contains no `@` the validated set becomes empty with
no validator call; otherwise the candidates extracted by the external
detector are validated sequentially and the surviving keys replace the
validated set.  `detect` and `validate` stand for the external
collaborators `detectMentionsInText` and `validateAndReturnPublicKey`,
which live outside this repository. -/
def mentionEffect (detect : List Char → List (List Char))
    (validate : List Char → Option (List Char)) (content : List Char) :
    List (List Char) × Nat :=
  if content.contains '@' then validateMentionsLoop validate (detect content)
  else ([], 0)

/-- The class `[\w+-]` of the emoji query regex: word characters plus
the two listed punctuation marks. -/
def isWordPlusChar (c : Char) : Bool :=
  isAlnumAscii c || c == '_' || c == '+' || c == '-'

/-- One attempt of the emoji query regex at a fixed position: a colon
at the head, then a run of query characters that must reach the end of
the inspected text, mirroring the trailing anchor. -/
def tryColonAt (cs : List Char) : Option (List Char) :=
  match cs with
  | ':' :: rest => if rest.all isWordPlusChar then some rest else none
  | _ => none

/-- Leftmost match of `/(?:^|\s):([\w+-]*)$/` as found by `exec`: at
each position the start-of-text alternative is tried when the position
is the start, then the whitespace alternative, then the scan moves one
character right. -/
def emojiScan : Bool → List Char → Option (List Char)
  | atStart, cs =>
    match (if atStart then tryColonAt cs else none) with
    | some q => some q
    | none =>
      match cs with
      | [] => none
      | c :: rest =>
        match (if isJsWhitespace c then tryColonAt rest else none) with
        | some q => some q
        | none => emojiScan false rest

/-- The emoji query state the richer variant keeps: the live query and
the candidate replacement range inside the caret text node. -/
structure EmojiQueryState where
  emojiQuery : List Char
  range : Option (Nat × Nat)
deriving DecidableEq

/-- Embedding of `updateEmojiQueryFromSelection` (richer variant,
lines 131 to 183).  The argument is the caret position when every
guard passes: the content of the text node holding the caret end-point
and the end offset; `none` models a missing editor, an empty
selection, a caret outside the editor, or a non-text end container,
each of which clears the query and the range.  On a match with a
nonempty capture the query is the capture and the range spans from the
colon to the caret. -/
def updateEmojiQueryFromSelection (caret : Option (List Char × Nat)) :
    EmojiQueryState :=
  match caret with
  | none => ⟨[], none⟩
  | some (text, endOffset) =>
    let uptoCursor := text.take endOffset
    match emojiScan true uptoCursor with
    | none => ⟨[], none⟩
    | some q =>
      if q = [] then ⟨[], none⟩
      else ⟨q, some (endOffset - q.length - 1, endOffset)⟩


/-- No literal angle bracket, double quote or apostrophe occurs in the
list: the raw characters the escaper must eliminate. -/
def noRawSpecialChars (cs : List Char) : Bool :=
  cs.all fun c => !(c == '<' || c == '>' || c == '"' || c == apos)

/-- The list opens with one of the five entity tails the escaper
introduces after an ampersand. -/
def entityHeaded (cs : List Char) : Bool :=
  startsWithLit "amp;".data cs || startsWithLit "lt;".data cs ||
    startsWithLit "gt;".data cs || startsWithLit "quot;".data cs ||
    startsWithLit "#039;".data cs

/-- Every ampersand in the list opens one of the five entities: the
sense in which ampersands occur only in entity form. -/
def ampEntityOnly : List Char → Bool
  | [] => true
  | c :: rest => (if c = '&' then entityHeaded rest else true) && ampEntityOnly rest

theorem dataAmpEnt : "&amp;".data = ['&', 'a', 'm', 'p', ';'] := rfl

theorem dataLtEnt : "&lt;".data = ['&', 'l', 't', ';'] := rfl

theorem dataGtEnt : "&gt;".data = ['&', 'g', 't', ';'] := rfl

theorem dataQuotEnt : "&quot;".data = ['&', 'q', 'u', 'o', 't', ';'] := rfl

theorem dataAposEnt : "&#039;".data = ['&', '#', '0', '3', '9', ';'] := rfl

theorem dataAmp : "amp;".data = ['a', 'm', 'p', ';'] := rfl

theorem dataLt : "lt;".data = ['l', 't', ';'] := rfl

theorem dataGt : "gt;".data = ['g', 't', ';'] := rfl

theorem dataQuot : "quot;".data = ['q', 'u', 'o', 't', ';'] := rfl

theorem dataApos : "#039;".data = ['#', '0', '3', '9', ';'] := rfl

theorem dataBr : "<br/>".data = ['<', 'b', 'r', '/', '>'] := rfl

theorem cmap_nil (f : Char → List Char) : cmap f [] = [] := rfl

theorem cmap_cons (f : Char → List Char) (c : Char) (cs : List Char) :
    cmap f (c :: cs) = f c ++ cmap f cs := rfl

theorem cmap_append (f : Char → List Char) (a b : List Char) :
    cmap f (a ++ b) = cmap f a ++ cmap f b := by
  induction a with
  | nil => rfl
  | cons c cs ih => simp [cmap, ih]

theorem replaceChar_nil (p : Char) (r : List Char) : replaceChar p r [] = [] := rfl

theorem replaceChar_cons (p : Char) (r : List Char) (c : Char) (cs : List Char) :
    replaceChar p r (c :: cs) = (if c = p then r else [c]) ++ replaceChar p r cs := rfl

theorem replaceChar_append (p : Char) (r : List Char) (a b : List Char) :
    replaceChar p r (a ++ b) = replaceChar p r a ++ replaceChar p r b := by
  simp [replaceChar, cmap_append]

theorem escapeHtml_nil : escapeHtml [] = [] := rfl

theorem escapeHtml_cons (c : Char) (v : List Char) :
    escapeHtml (c :: v) = escChar c ++ escapeHtml v := by
  show replaceChar apos "&#039;".data
      (replaceChar '"' "&quot;".data
        (replaceChar '>' "&gt;".data
          (replaceChar '<' "&lt;".data
            (replaceChar '&' "&amp;".data (c :: v))))) = _
  rw [replaceChar_cons, replaceChar_append, replaceChar_append, replaceChar_append,
    replaceChar_append]
  show _ ++ escapeHtml v = escChar c ++ escapeHtml v
  congr 1
  by_cases h1 : c = '&'
  · subst h1; decide
  by_cases h2 : c = '<'
  · subst h2; decide
  by_cases h3 : c = '>'
  · subst h3; decide
  by_cases h4 : c = '"'
  · subst h4; decide
  by_cases h5 : c = apos
  · subst h5; decide
  simp [replaceChar_cons, replaceChar_nil, h1, h2, h3, h4, h5, escChar]

theorem escapeHtml_eq_cmap (v : List Char) : escapeHtml v = cmap escChar v := by
  induction v with
  | nil => rfl
  | cons c v ih => rw [escapeHtml_cons, cmap_cons, ih]

theorem escapeAndBreak_nil : escapeAndBreak [] = [] := rfl

theorem escapeAndBreak_cons (c : Char) (v : List Char) :
    escapeAndBreak (c :: v) = escBrChar c ++ escapeAndBreak v := by
  show replaceChar nl "<br/>".data (escapeHtml (c :: v)) = _
  rw [escapeHtml_cons, replaceChar_append]
  show _ ++ escapeAndBreak v = escBrChar c ++ escapeAndBreak v
  congr 1
  by_cases h1 : c = '&'
  · subst h1; decide
  by_cases h2 : c = '<'
  · subst h2; decide
  by_cases h3 : c = '>'
  · subst h3; decide
  by_cases h4 : c = '"'
  · subst h4; decide
  by_cases h5 : c = apos
  · subst h5; decide
  by_cases h6 : c = nl
  · subst h6; decide
  simp [escChar, escBrChar, replaceChar_cons, replaceChar_nil, h1, h2, h3, h4, h5, h6]

theorem escapeAndBreak_eq_cmap (v : List Char) :
    escapeAndBreak v = cmap escBrChar v := by
  induction v with
  | nil => rfl
  | cons c v ih => rw [escapeAndBreak_cons, cmap_cons, ih]

theorem escapeAndBreak_append (a b : List Char) :
    escapeAndBreak (a ++ b) = escapeAndBreak a ++ escapeAndBreak b := by
  simp [escapeAndBreak_eq_cmap, cmap_append]

theorem dropLit_self : ∀ (p cs : List Char), dropLit p (p ++ cs) = some cs := by
  intro p
  induction p with
  | nil => intro cs; rfl
  | cons x ps ih => intro cs; simp [dropLit, ih]

theorem dropLit_ne_head {p c : Char} (ps cs : List Char) (h : c ≠ p) :
    dropLit (p :: ps) (c :: cs) = none := by
  simp [dropLit, h]

theorem dropLit_sound : ∀ (p cs r : List Char), dropLit p cs = some r → cs = p ++ r := by
  intro p
  induction p with
  | nil =>
    intro cs r h
    simp only [dropLit, Option.some.injEq] at h
    simp [h]
  | cons x ps ih =>
    intro cs r h
    cases cs with
    | nil => simp [dropLit] at h
    | cons c cs =>
      by_cases hc : c = x
      · subst hc
        rw [dropLit, if_pos rfl] at h
        have := ih cs r h
        simp [this]
      · rw [dropLit_ne_head _ _ hc] at h
        cases h

theorem dropLit_length {p cs r : List Char} (h : dropLit p cs = some r) :
    r.length ≤ cs.length := by
  have := dropLit_sound p cs r h
  subst this
  simp

theorem takeWhile_append_of_all {p : Char → Bool} :
    ∀ (xs ys : List Char), (∀ c ∈ xs, p c = true) →
      (xs ++ ys).takeWhile p = xs ++ ys.takeWhile p := by
  intro xs
  induction xs with
  | nil => intro ys _; rfl
  | cons x xs ih =>
    intro ys h
    have hx : p x = true := h x (by simp)
    simp [List.takeWhile_cons, hx]
    exact ih ys (fun c hc => h c (by simp [hc]))

theorem dropWhile_append_of_all {p : Char → Bool} :
    ∀ (xs ys : List Char), (∀ c ∈ xs, p c = true) →
      (xs ++ ys).dropWhile p = ys.dropWhile p := by
  intro xs
  induction xs with
  | nil => intro ys _; rfl
  | cons x xs ih =>
    intro ys h
    have hx : p x = true := h x (by simp)
    simp [List.dropWhile_cons, hx]
    exact ih ys (fun c hc => h c (by simp [hc]))

theorem length_dropWhile_le (p : Char → Bool) (cs : List Char) :
    (cs.dropWhile p).length ≤ cs.length := by
  induction cs with
  | nil => simp
  | cons c cs ih =>
    by_cases h : p c
    · simp [List.dropWhile_cons, h]; omega
    · simp [List.dropWhile_cons, h]

theorem decodeEntity_amp (t : List Char) :
    decodeEntity ("amp;".data ++ t) = some ('&', t) := by
  unfold decodeEntity
  rw [dropLit_self]

theorem decodeEntity_lt (t : List Char) :
    decodeEntity ("lt;".data ++ t) = some ('<', t) := by
  have h1 : dropLit "amp;".data ("lt;".data ++ t) = none := by
    rw [dataAmp, show ("lt;".data ++ t) = 'l' :: 't' :: ';' :: t from rfl]
    exact dropLit_ne_head _ _ (by decide)
  unfold decodeEntity
  rw [h1, dropLit_self]

theorem decodeEntity_gt (t : List Char) :
    decodeEntity ("gt;".data ++ t) = some ('>', t) := by
  have h1 : dropLit "amp;".data ("gt;".data ++ t) = none := by
    rw [dataAmp, show ("gt;".data ++ t) = 'g' :: 't' :: ';' :: t from rfl]
    exact dropLit_ne_head _ _ (by decide)
  have h2 : dropLit "lt;".data ("gt;".data ++ t) = none := by
    rw [dataLt, show ("gt;".data ++ t) = 'g' :: 't' :: ';' :: t from rfl]
    exact dropLit_ne_head _ _ (by decide)
  unfold decodeEntity
  rw [h1, h2, dropLit_self]

theorem decodeEntity_quot (t : List Char) :
    decodeEntity ("quot;".data ++ t) = some ('"', t) := by
  have h1 : dropLit "amp;".data ("quot;".data ++ t) = none := by
    rw [dataAmp, show ("quot;".data ++ t) = 'q' :: 'u' :: 'o' :: 't' :: ';' :: t from rfl]
    exact dropLit_ne_head _ _ (by decide)
  have h2 : dropLit "lt;".data ("quot;".data ++ t) = none := by
    rw [dataLt, show ("quot;".data ++ t) = 'q' :: 'u' :: 'o' :: 't' :: ';' :: t from rfl]
    exact dropLit_ne_head _ _ (by decide)
  have h3 : dropLit "gt;".data ("quot;".data ++ t) = none := by
    rw [dataGt, show ("quot;".data ++ t) = 'q' :: 'u' :: 'o' :: 't' :: ';' :: t from rfl]
    exact dropLit_ne_head _ _ (by decide)
  unfold decodeEntity
  rw [h1, h2, h3, dropLit_self]

theorem decodeEntity_apos (t : List Char) :
    decodeEntity ("#039;".data ++ t) = some (apos, t) := by
  have h1 : dropLit "amp;".data ("#039;".data ++ t) = none := by
    rw [dataAmp, show ("#039;".data ++ t) = '#' :: '0' :: '3' :: '9' :: ';' :: t from rfl]
    exact dropLit_ne_head _ _ (by decide)
  have h2 : dropLit "lt;".data ("#039;".data ++ t) = none := by
    rw [dataLt, show ("#039;".data ++ t) = '#' :: '0' :: '3' :: '9' :: ';' :: t from rfl]
    exact dropLit_ne_head _ _ (by decide)
  have h3 : dropLit "gt;".data ("#039;".data ++ t) = none := by
    rw [dataGt, show ("#039;".data ++ t) = '#' :: '0' :: '3' :: '9' :: ';' :: t from rfl]
    exact dropLit_ne_head _ _ (by decide)
  have h4 : dropLit "quot;".data ("#039;".data ++ t) = none := by
    rw [dataQuot, show ("#039;".data ++ t) = '#' :: '0' :: '3' :: '9' :: ';' :: t from rfl]
    exact dropLit_ne_head _ _ (by decide)
  unfold decodeEntity
  rw [h1, h2, h3, h4, dropLit_self]

theorem decodeEntity_length {rest : List Char} {d : Char} {r : List Char}
    (h : decodeEntity rest = some (d, r)) : r.length <= rest.length := by
  rw [decodeEntity] at h
  repeat' split at h
  all_goals
    first
    | (rename_i r1 heq
       simp only [Option.some.injEq, Prod.mk.injEq] at h
       obtain ⟨-, rfl⟩ := h
       exact dropLit_length heq)
    | cases h


theorem decodeEntity_amp_cons (t : List Char) :
    decodeEntity ('a' :: 'm' :: 'p' :: ';' :: t) = some ('&', t) :=
  decodeEntity_amp t

theorem decodeEntity_lt_cons (t : List Char) :
    decodeEntity ('l' :: 't' :: ';' :: t) = some ('<', t) :=
  decodeEntity_lt t

theorem decodeEntity_gt_cons (t : List Char) :
    decodeEntity ('g' :: 't' :: ';' :: t) = some ('>', t) :=
  decodeEntity_gt t

theorem decodeEntity_quot_cons (t : List Char) :
    decodeEntity ('q' :: 'u' :: 'o' :: 't' :: ';' :: t) = some ('"', t) :=
  decodeEntity_quot t

theorem decodeEntity_apos_cons (t : List Char) :
    decodeEntity ('#' :: '0' :: '3' :: '9' :: ';' :: t) = some (apos, t) :=
  decodeEntity_apos t

theorem unescapeFuel_eq : ∀ (f1 f2 : Nat) (cs : List Char),
    cs.length ≤ f1 → cs.length ≤ f2 → unescapeFuel f1 cs = unescapeFuel f2 cs := by
  intro f1
  induction f1 with
  | zero =>
    intro f2 cs h1 _
    have : cs = [] := List.length_eq_zero.mp (Nat.le_zero.mp h1)
    subst this
    cases f2 <;> rfl
  | succ f ih =>
    intro f2 cs h1 h2
    cases cs with
    | nil => cases f2 <;> rfl
    | cons c rest =>
      cases f2 with
      | zero => simp at h2
      | succ f2 =>
        simp only [List.length_cons] at h1 h2
        simp only [unescapeFuel]
        by_cases hc : c = '&'
        · rw [if_pos hc, if_pos hc]
          cases hd : decodeEntity rest with
          | some dr =>
            obtain ⟨d, r⟩ := dr
            have hr := decodeEntity_length hd
            simp [ih f2 r (by omega) (by omega)]
          | none =>
            simp [ih f2 rest (by omega) (by omega)]
        · rw [if_neg hc, if_neg hc, ih f2 rest (by omega) (by omega)]

theorem unescapeEntities_nil : unescapeEntities [] = [] := rfl

theorem unescape_esc : ∀ (v : List Char) (f : Nat),
    (cmap escChar v).length ≤ f → unescapeFuel f (cmap escChar v) = v := by
  intro v
  induction v with
  | nil => intro f _; cases f <;> rfl
  | cons c v ih =>
    intro f hf
    by_cases h1 : c = '&'
    · subst h1
      rw [show cmap escChar ('&' :: v) = '&' :: ("amp;".data ++ cmap escChar v) from by
        rw [cmap_cons]; rfl] at hf ⊢
      simp only [List.length_cons, List.length_append] at hf
      cases f with
      | zero => omega
      | succ f =>
        have hv : (cmap escChar v).length ≤ f := by
          simp only [List.length_nil] at hf
          omega
        simp [unescapeFuel, decodeEntity_amp_cons, ih f hv]
    by_cases h2 : c = '<'
    · subst h2
      rw [show cmap escChar ('<' :: v) = '&' :: ("lt;".data ++ cmap escChar v) from by
        rw [cmap_cons]; rfl] at hf ⊢
      simp only [List.length_cons, List.length_append] at hf
      cases f with
      | zero => omega
      | succ f =>
        have hv : (cmap escChar v).length ≤ f := by
          simp only [List.length_nil] at hf
          omega
        simp [unescapeFuel, decodeEntity_lt_cons, ih f hv]
    by_cases h3 : c = '>'
    · subst h3
      rw [show cmap escChar ('>' :: v) = '&' :: ("gt;".data ++ cmap escChar v) from by
        rw [cmap_cons]; rfl] at hf ⊢
      simp only [List.length_cons, List.length_append] at hf
      cases f with
      | zero => omega
      | succ f =>
        have hv : (cmap escChar v).length ≤ f := by
          simp only [List.length_nil] at hf
          omega
        simp [unescapeFuel, decodeEntity_gt_cons, ih f hv]
    by_cases h4 : c = '"'
    · subst h4
      rw [show cmap escChar ('"' :: v) = '&' :: ("quot;".data ++ cmap escChar v) from by
        rw [cmap_cons]; rfl] at hf ⊢
      simp only [List.length_cons, List.length_append] at hf
      cases f with
      | zero => omega
      | succ f =>
        have hv : (cmap escChar v).length ≤ f := by
          simp only [List.length_nil] at hf
          omega
        simp [unescapeFuel, decodeEntity_quot_cons, ih f hv]
    by_cases h5 : c = apos
    · subst h5
      rw [show cmap escChar (apos :: v) = '&' :: ("#039;".data ++ cmap escChar v) from by
        rw [cmap_cons]; rfl] at hf ⊢
      simp only [List.length_cons, List.length_append] at hf
      cases f with
      | zero => omega
      | succ f =>
        have hv : (cmap escChar v).length ≤ f := by
          simp only [List.length_nil] at hf
          omega
        simp [unescapeFuel, decodeEntity_apos_cons, ih f hv]
    · rw [show cmap escChar (c :: v) = c :: cmap escChar v from by
        rw [cmap_cons, show escChar c = [c] from by simp [escChar, h1, h2, h3, h4, h5]]
        rfl] at hf ⊢
      simp only [List.length_cons] at hf
      cases f with
      | zero => omega
      | succ f =>
        rw [show unescapeFuel (f + 1) (c :: cmap escChar v) =
            (if c = '&' then
              match decodeEntity (cmap escChar v) with
              | some (d, r) => d :: unescapeFuel f r
              | none => '&' :: unescapeFuel f (cmap escChar v)
            else c :: unescapeFuel f (cmap escChar v)) from rfl]
        rw [if_neg h1, ih f (by omega)]

theorem unescape_escape (v : List Char) :
    unescapeEntities (cmap escChar v) = v :=
  unescape_esc v (cmap escChar v).length (Nat.le_refl _)

theorem escChar_ne_nil (c : Char) : escChar c ≠ [] := by
  by_cases h1 : c = '&'
  · subst h1; decide
  by_cases h2 : c = '<'
  · subst h2; decide
  by_cases h3 : c = '>'
  · subst h3; decide
  by_cases h4 : c = '"'
  · subst h4; decide
  by_cases h5 : c = apos
  · subst h5; decide
  simp [escChar, h1, h2, h3, h4, h5]

theorem escChar_no_lt (a : Char) : ∀ c ∈ escChar a, c ≠ '<' := by
  intro c hc
  by_cases h1 : a = '&'
  · subst h1
    rw [show escChar '&' = ['&', 'a', 'm', 'p', ';'] from by decide] at hc
    simp at hc
    rcases hc with rfl | rfl | rfl | rfl | rfl <;> decide
  by_cases h2 : a = '<'
  · subst h2
    rw [show escChar '<' = ['&', 'l', 't', ';'] from by decide] at hc
    simp at hc
    rcases hc with rfl | rfl | rfl | rfl <;> decide
  by_cases h3 : a = '>'
  · subst h3
    rw [show escChar '>' = ['&', 'g', 't', ';'] from by decide] at hc
    simp at hc
    rcases hc with rfl | rfl | rfl | rfl <;> decide
  by_cases h4 : a = '"'
  · subst h4
    rw [show escChar '"' = ['&', 'q', 'u', 'o', 't', ';'] from by decide] at hc
    simp at hc
    rcases hc with rfl | rfl | rfl | rfl | rfl | rfl <;> decide
  by_cases h5 : a = apos
  · subst h5
    rw [show escChar apos = ['&', '#', '0', '3', '9', ';'] from by decide] at hc
    simp at hc
    rcases hc with rfl | rfl | rfl | rfl | rfl | rfl <;> decide
  · rw [show escChar a = [a] from by simp [escChar, h1, h2, h3, h4, h5]] at hc
    simp at hc
    subst hc
    exact h2

theorem cmap_escChar_no_lt (v : List Char) : ∀ c ∈ cmap escChar v, c ≠ '<' := by
  induction v with
  | nil => intro c hc; simp [cmap] at hc
  | cons a v ih =>
    intro c hc
    rw [cmap_cons] at hc
    rcases List.mem_append.mp hc with h | h
    · exact escChar_no_lt a c h
    · exact ih c h

theorem cmap_escChar_ne_nil {v : List Char} (h : v ≠ []) : cmap escChar v ≠ [] := by
  cases v with
  | nil => exact absurd rfl h
  | cons c v =>
    rw [cmap_cons]
    intro hx
    exact escChar_ne_nil c (List.append_eq_nil.mp hx).1

theorem escBrChar_eq_escChar {c : Char} (h : c ≠ nl) : escBrChar c = escChar c := by
  simp [escBrChar, h]

theorem cmap_escBr_eq_escChar {v : List Char} (h : ∀ c ∈ v, c ≠ nl) :
    cmap escBrChar v = cmap escChar v := by
  induction v with
  | nil => rfl
  | cons c v ih =>
    rw [cmap_cons, cmap_cons, escBrChar_eq_escChar (h c (by simp)),
      ih (fun d hd => h d (by simp [hd]))]

theorem dropWhile_cons_length {p : Char → Bool} {c : Char} (rest : List Char)
    (h : p c = true) : ((c :: rest).dropWhile p).length ≤ rest.length := by
  rw [List.dropWhile_cons, if_pos h]
  exact length_dropWhile_le p rest

theorem parseFuel_eq : ∀ (f1 f2 : Nat) (cs : List Char),
    cs.length ≤ f1 → cs.length ≤ f2 → parseFuel f1 cs = parseFuel f2 cs := by
  intro f1
  induction f1 with
  | zero =>
    intro f2 cs h1 _
    have : cs = [] := List.length_eq_zero.mp (Nat.le_zero.mp h1)
    subst this
    cases f2 <;> rfl
  | succ f ih =>
    intro f2 cs h1 h2
    cases cs with
    | nil => cases f2 <;> rfl
    | cons c rest =>
      cases f2 with
      | zero => simp at h2
      | succ f2 =>
        simp only [List.length_cons] at h1 h2
        simp only [parseFuel]
        by_cases hc : c = '<'
        · rw [if_pos hc, if_pos hc]
          cases hbr : dropLit "br/>".data rest with
          | some r =>
            have hr := dropLit_length hbr
            simp [ih f2 r (by omega) (by omega)]
          | none =>
            cases himg : dropLit "img data-emote-url=\"".data rest with
            | some r =>
              have hr := dropLit_length himg
              have h3 : ((r.dropWhile fun d => !decide (d = '"')).dropWhile
                  fun d => !decide (d = '>')).tail.length ≤ r.length := by
                have g1 := length_dropWhile_le (fun d => !decide (d = '"')) r
                have g2 := length_dropWhile_le (fun d => !decide (d = '>'))
                  (r.dropWhile fun d => !decide (d = '"'))
                have g3 := List.length_tail ((r.dropWhile fun d => !decide (d = '"')).dropWhile
                  fun d => !decide (d = '>'))
                omega
              simp
              apply ih f2 <;> omega
            | none =>
              simp [ih f2 rest (by omega) (by omega)]
        · rw [if_neg hc, if_neg hc]
          have hd : ((c :: rest).dropWhile (fun d => d ≠ '<')).length ≤ rest.length :=
            dropWhile_cons_length rest (by simp [hc])
          rw [ih f2 _ (by omega) (by omega)]

theorem parseRenderedHtml_nil : parseRenderedHtml [] = [] := rfl

theorem parse_br_step (ys : List Char) :
    parseRenderedHtml ("<br/>".data ++ ys) =
      DomNode.element "BR" none [] :: parseRenderedHtml ys := by
  unfold parseRenderedHtml
  rw [show ("<br/>".data ++ ys).length = (4 + ys.length) + 1 from by
      rw [dataBr]; simp; omega,
    show ("<br/>".data ++ ys : List Char) = '<' :: ("br/>".data ++ ys) from rfl]
  simp only [parseFuel, eq_self_iff_true, if_true, dropLit_self]
  rw [parseFuel_eq (4 + ys.length) ys.length ys (by omega) (by omega)]

theorem dropLit_none_of_head_ne {p c : Char} {ps : List Char} {cs : List Char}
    (h : cs.head? = some c) (hne : c ≠ p) : dropLit (p :: ps) cs = none := by
  cases cs with
  | nil => cases h
  | cons c0 t =>
    simp only [List.head?_cons, Option.some.injEq] at h
    subst h
    exact dropLit_ne_head _ _ hne

theorem takeWhile_head_false {p : Char → Bool} {c : Char} (l : List Char)
    (h : p c = false) : (c :: l).takeWhile p = [] := by
  simp [List.takeWhile_cons, h]

theorem dropWhile_head_false {p : Char → Bool} {c : Char} (l : List Char)
    (h : p c = false) : (c :: l).dropWhile p = c :: l := by
  simp [List.dropWhile_cons, h]

theorem parse_text_step (xs ys : List Char) (hne : xs ≠ [])
    (hlt : ∀ c ∈ xs, c ≠ '<')
    (hys : ys = [] ∨ ∃ t, ys = '<' :: t) :
    parseRenderedHtml (xs ++ ys) =
      DomNode.text (some (unescapeEntities xs)) :: parseRenderedHtml ys := by
  cases xs with
  | nil => exact absurd rfl hne
  | cons c xs =>
    have hc : c ≠ '<' := hlt c (by simp)
    have hall : ∀ d ∈ (c :: xs), (fun d => decide (d ≠ '<')) d = true := by
      intro d hd
      simp [hlt d hd]
    have htake : ((c :: xs) ++ ys).takeWhile (fun d => decide (d ≠ '<')) = c :: xs := by
      rw [takeWhile_append_of_all _ _ hall]
      rcases hys with rfl | ⟨t, rfl⟩
      · simp
      · rw [takeWhile_head_false _ (by simp)]
        simp
    have hdrop : ((c :: xs) ++ ys).dropWhile (fun d => decide (d ≠ '<')) = ys := by
      rw [dropWhile_append_of_all _ _ hall]
      rcases hys with rfl | ⟨t, rfl⟩
      · simp
      · rw [dropWhile_head_false _ (by simp)]
    unfold parseRenderedHtml
    rw [show ((c :: xs) ++ ys).length = (xs.length + ys.length) + 1 from by simp,
      show ((c :: xs) ++ ys : List Char) = c :: (xs ++ ys) from rfl]
    simp only [parseFuel, if_neg hc]
    rw [show (c :: (xs ++ ys) : List Char) = (c :: xs) ++ ys from rfl, htake, hdrop,
      parseFuel_eq (xs.length + ys.length) ys.length ys (by omega) (by omega)]

theorem parseFuel_img_step (f : Nat) (url ys : List Char)
    (hq : ∀ c ∈ url, c ≠ '"') (hg : ∀ c ∈ url, c ≠ '>') (hf : ys.length ≤ f) :
    parseFuel (f + 1) ('<' :: ("img data-emote-url=\"".data ++ (url ++ ("\" src=\"".data ++ (url ++
      ("\" alt=\"7TV emote\" style=\"height:1.5rem;width:1.5rem;display:inline-block;vertical-align:text-bottom;\" />".data ++ ys)))))) =
      DomNode.element "IMG" (some url) [] :: parseFuel ys.length ys := by
  have hallq : ∀ d ∈ url, (fun d => decide (d ≠ '"')) d = true := by
    intro d hd
    simp [hq d hd]
  have hallg : ∀ d ∈ url, (fun d => decide (d ≠ '>')) d = true := by
    intro d hd
    simp [hg d hd]
  have hbr : dropLit "br/>".data
      ("img data-emote-url=\"".data ++ (url ++ ("\" src=\"".data ++ (url ++
        ("\" alt=\"7TV emote\" style=\"height:1.5rem;width:1.5rem;display:inline-block;vertical-align:text-bottom;\" />".data ++ ys))))) = none := by
    rw [show ("br/>".data : List Char) = 'b' :: "r/>".data from rfl]
    exact dropLit_none_of_head_ne rfl (by decide)
  have htake : (url ++ ("\" src=\"".data ++ (url ++
      ("\" alt=\"7TV emote\" style=\"height:1.5rem;width:1.5rem;display:inline-block;vertical-align:text-bottom;\" />".data ++ ys)))).takeWhile
        (fun d => decide (d ≠ '"')) = url := by
    rw [takeWhile_append_of_all _ _ hallq,
      show ("\" src=\"".data ++ (url ++
        ("\" alt=\"7TV emote\" style=\"height:1.5rem;width:1.5rem;display:inline-block;vertical-align:text-bottom;\" />".data ++ ys))) =
        '"' :: (" src=\"".data ++ (url ++
        ("\" alt=\"7TV emote\" style=\"height:1.5rem;width:1.5rem;display:inline-block;vertical-align:text-bottom;\" />".data ++ ys))) from rfl,
      takeWhile_head_false _ (by decide)]
    simp
  have hdrop : (url ++ ("\" src=\"".data ++ (url ++
      ("\" alt=\"7TV emote\" style=\"height:1.5rem;width:1.5rem;display:inline-block;vertical-align:text-bottom;\" />".data ++ ys)))).dropWhile
        (fun d => decide (d ≠ '"')) =
      '"' :: (" src=\"".data ++ (url ++
        ("\" alt=\"7TV emote\" style=\"height:1.5rem;width:1.5rem;display:inline-block;vertical-align:text-bottom;\" />".data ++ ys))) := by
    rw [dropWhile_append_of_all _ _ hallq,
      show ("\" src=\"".data ++ (url ++
        ("\" alt=\"7TV emote\" style=\"height:1.5rem;width:1.5rem;display:inline-block;vertical-align:text-bottom;\" />".data ++ ys))) =
        '"' :: (" src=\"".data ++ (url ++
        ("\" alt=\"7TV emote\" style=\"height:1.5rem;width:1.5rem;display:inline-block;vertical-align:text-bottom;\" />".data ++ ys))) from rfl,
      dropWhile_head_false _ (by decide)]
  have hsrcall : ∀ d ∈ " src=\"".data, (fun d => decide (d ≠ '>')) d = true := by decide
  have hclose : ∀ d ∈ "\" alt=\"7TV emote\" style=\"height:1.5rem;width:1.5rem;display:inline-block;vertical-align:text-bottom;\" /".data,
      (fun d => decide (d ≠ '>')) d = true := by decide
  have hdrop2 : ('"' :: (" src=\"".data ++ (url ++
      ("\" alt=\"7TV emote\" style=\"height:1.5rem;width:1.5rem;display:inline-block;vertical-align:text-bottom;\" />".data ++ ys)))).dropWhile
        (fun d => decide (d ≠ '>')) = '>' :: ys := by
    rw [List.dropWhile_cons, if_pos (by decide), dropWhile_append_of_all _ _ hsrcall,
      dropWhile_append_of_all _ _ hallg,
      show ("\" alt=\"7TV emote\" style=\"height:1.5rem;width:1.5rem;display:inline-block;vertical-align:text-bottom;\" />".data ++ ys) =
        "\" alt=\"7TV emote\" style=\"height:1.5rem;width:1.5rem;display:inline-block;vertical-align:text-bottom;\" /".data ++ ('>' :: ys) from rfl,
      dropWhile_append_of_all _ _ hclose, dropWhile_head_false _ (by decide)]
  simp only [parseFuel, eq_self_iff_true, if_true, hbr, dropLit_self, htake, hdrop, hdrop2,
    List.tail_cons]
  rw [parseFuel_eq f ys.length ys hf (by omega)]

theorem parse_img_step (url ys : List Char)
    (hq : ∀ c ∈ url, c ≠ '"') (hg : ∀ c ∈ url, c ≠ '>') :
    parseRenderedHtml (imgHtml url ++ ys) =
      DomNode.element "IMG" (some url) [] :: parseRenderedHtml ys := by
  have h1 : imgHtml url ++ ys =
      '<' :: ("img data-emote-url=\"".data ++ (url ++ ("\" src=\"".data ++ (url ++
        ("\" alt=\"7TV emote\" style=\"height:1.5rem;width:1.5rem;display:inline-block;vertical-align:text-bottom;\" />".data ++ ys))))) := by
    simp [imgHtml, List.append_assoc,
      show "<img data-emote-url=\"".data = '<' :: "img data-emote-url=\"".data from rfl]
  unfold parseRenderedHtml
  rw [h1,
    show ('<' :: ("img data-emote-url=\"".data ++ (url ++ ("\" src=\"".data ++ (url ++
      ("\" alt=\"7TV emote\" style=\"height:1.5rem;width:1.5rem;display:inline-block;vertical-align:text-bottom;\" />".data ++ ys)))))).length =
      ("img data-emote-url=\"".data ++ (url ++ ("\" src=\"".data ++ (url ++
      ("\" alt=\"7TV emote\" style=\"height:1.5rem;width:1.5rem;display:inline-block;vertical-align:text-bottom;\" />".data ++ ys))))).length + 1 from by
      simp]
  rw [parseFuel_img_step _ url ys hq hg (by simp [List.length_append]; omega)]

theorem many1P_sound {p : Char → Bool} {cs run rest : List Char}
    (h : many1P p cs = some (run, rest)) :
    cs = run ++ rest ∧ run ≠ [] ∧ (∀ c ∈ run, p c = true) := by
  unfold many1P at h
  by_cases he : (cs.takeWhile p).isEmpty
  · rw [if_pos he] at h; cases h
  · rw [if_neg he] at h
    simp only [Option.some.injEq, Prod.mk.injEq] at h
    obtain ⟨rfl, rfl⟩ := h
    refine ⟨(List.takeWhile_append_dropWhile p cs).symm, ?_, ?_⟩
    · intro hx; rw [hx] at he; exact he rfl
    · intro c hc; exact List.mem_takeWhile_imp hc

theorem many1P_complete {p : Char → Bool} (run rest : List Char) (hne : run ≠ [])
    (hall : ∀ c ∈ run, p c = true)
    (hstop : ∀ c, rest.head? = some c → p c = false) :
    many1P p (run ++ rest) = some (run, rest) := by
  have ht : rest.takeWhile p = [] := by
    cases rest with
    | nil => rfl
    | cons c t => exact takeWhile_head_false _ (hstop c rfl)
  have hd : rest.dropWhile p = rest := by
    cases rest with
    | nil => rfl
    | cons c t => exact dropWhile_head_false _ (hstop c rfl)
  unfold many1P
  rw [takeWhile_append_of_all _ _ hall, dropWhile_append_of_all _ _ hall, ht, hd]
  simp [hne]

theorem matchExt_sound {cs ext rest : List Char} (h : matchExt cs = some (ext, rest)) :
    cs = ext ++ rest ∧ (ext = "webp".data ∨ ext = "png".data ∨ ext = "avif".data) := by
  rw [matchExt] at h
  repeat' split at h
  all_goals cases h
  all_goals
    rename_i heq
    exact ⟨dropLit_sound _ _ _ heq, by simp⟩

theorem matchExt_complete (ext rest : List Char)
    (hext : ext = "webp".data ∨ ext = "png".data ∨ ext = "avif".data) :
    matchExt (ext ++ rest) = some (ext, rest) := by
  rcases hext with rfl | rfl | rfl
  · rw [matchExt, dropLit_self]
  · have h1 : dropLit "webp".data ("png".data ++ rest) = none := by
      rw [show ("webp".data : List Char) = 'w' :: "ebp".data from rfl]
      exact dropLit_none_of_head_ne rfl (by decide)
    rw [matchExt, h1, dropLit_self]
  · have h1 : dropLit "webp".data ("avif".data ++ rest) = none := by
      rw [show ("webp".data : List Char) = 'w' :: "ebp".data from rfl]
      exact dropLit_none_of_head_ne rfl (by decide)
    have h2 : dropLit "png".data ("avif".data ++ rest) = none := by
      rw [show ("png".data : List Char) = 'p' :: "ng".data from rfl]
      exact dropLit_none_of_head_ne rfl (by decide)
    rw [matchExt, h1, h2, dropLit_self]

theorem matchAfterScheme_sound {cs m rest : List Char}
    (h : matchAfterScheme cs = some (m, rest)) :
    cs = m ++ rest ∧
    ∃ idRun digits ext,
      m = "://cdn.7tv.app/emote/".data ++ idRun ++ "/".data ++ digits ++
        "x.".data ++ ext ∧
      idRun ≠ [] ∧ idRun.all isAlnumAscii = true ∧
      digits ≠ [] ∧ digits.all isDigitAscii = true ∧
      (ext = "webp".data ∨ ext = "png".data ∨ ext = "avif".data) := by
  rw [matchAfterScheme] at h
  cases h1 : dropLit "://cdn.7tv.app/emote/".data cs with
  | none => rw [h1] at h; cases h
  | some r1 =>
    simp only [h1] at h
    cases h2 : many1P isAlnumAscii r1 with
    | none => rw [h2] at h; cases h
    | some p1 =>
      obtain ⟨idRun, r2⟩ := p1
      simp only [h2] at h
      cases h3 : dropLit "/".data r2 with
      | none => rw [h3] at h; cases h
      | some r3 =>
        simp only [h3] at h
        cases h4 : many1P isDigitAscii r3 with
        | none => rw [h4] at h; cases h
        | some p2 =>
          obtain ⟨digits, r4⟩ := p2
          simp only [h4] at h
          cases h5 : dropLit "x.".data r4 with
          | none => rw [h5] at h; cases h
          | some r5 =>
            simp only [h5] at h
            cases h6 : matchExt r5 with
            | none => rw [h6] at h; cases h
            | some p3 =>
              obtain ⟨ext, r6⟩ := p3
              simp only [h6, Option.some.injEq, Prod.mk.injEq] at h
              obtain ⟨rfl, rfl⟩ := h
              have e1 := dropLit_sound _ _ _ h1
              obtain ⟨e2, hne1, hall1⟩ := many1P_sound h2
              have e3 := dropLit_sound _ _ _ h3
              obtain ⟨e4, hne2, hall2⟩ := many1P_sound h4
              have e5 := dropLit_sound _ _ _ h5
              obtain ⟨e6, hext⟩ := matchExt_sound h6
              constructor
              · subst e1 e2 e3 e4 e5 e6
                simp [List.append_assoc]
              · refine ⟨idRun, digits, ext, rfl, hne1, ?_, hne2, ?_, hext⟩
                · rw [List.all_eq_true]; exact hall1
                · rw [List.all_eq_true]; exact hall2

theorem matchAfterScheme_complete (idRun digits ext rest : List Char)
    (hne1 : idRun ≠ []) (hall1 : ∀ c ∈ idRun, isAlnumAscii c = true)
    (hne2 : digits ≠ []) (hall2 : ∀ c ∈ digits, isDigitAscii c = true)
    (hext : ext = "webp".data ∨ ext = "png".data ∨ ext = "avif".data) :
    matchAfterScheme ("://cdn.7tv.app/emote/".data ++ (idRun ++ ("/".data ++
      (digits ++ ("x.".data ++ (ext ++ rest)))))) =
      some ("://cdn.7tv.app/emote/".data ++ idRun ++ "/".data ++ digits ++
        "x.".data ++ ext, rest) := by
  have hid : many1P isAlnumAscii (idRun ++ ("/".data ++
      (digits ++ ("x.".data ++ (ext ++ rest))))) =
      some (idRun, "/".data ++ (digits ++ ("x.".data ++ (ext ++ rest)))) := by
    apply many1P_complete _ _ hne1 hall1
    intro c hc
    rw [show ("/".data ++ (digits ++ ("x.".data ++ (ext ++ rest))) : List Char).head? =
      some '/' from rfl, Option.some.injEq] at hc
    subst hc
    decide
  have hdig : many1P isDigitAscii (digits ++ ("x.".data ++ (ext ++ rest))) =
      some (digits, "x.".data ++ (ext ++ rest)) := by
    apply many1P_complete _ _ hne2 hall2
    intro c hc
    rw [show ("x.".data ++ (ext ++ rest) : List Char).head? = some 'x' from rfl,
      Option.some.injEq] at hc
    subst hc
    decide
  rw [matchAfterScheme]
  simp only [dropLit_self, hid, hdig, matchExt_complete ext rest hext]

theorem matchEmoteAt_sound {cs m rest : List Char}
    (h : matchEmoteAt cs = some (m, rest)) :
    cs = m ++ rest ∧ IsEmoteUrl m := by
  have core : ∀ r, dropLit "http".data cs = some r →
      ∀ m0 rest0, matchAfterScheme r = some (m0, rest0) →
      m = "http".data ++ m0 → rest = rest0 → cs = m ++ rest ∧ IsEmoteUrl m := by
    intro r hr m0 rest0 hm0 hm hrest
    subst hm hrest
    have e1 := dropLit_sound _ _ _ hr
    obtain ⟨e2, idRun, digits, ext, hm0eq, hne1, hall1, hne2, hall2, hext⟩ :=
      matchAfterScheme_sound hm0
    constructor
    · subst e1 e2
      simp [List.append_assoc]
    · refine ⟨false, idRun, digits, ext, hne1, hall1, hne2, hall2, hext, ?_⟩
      subst hm0eq
      simp [List.append_assoc]
  have coreS : ∀ r2, dropLit "https".data cs = some r2 →
      ∀ m0 rest0, matchAfterScheme r2 = some (m0, rest0) →
      m = "https".data ++ m0 → rest = rest0 → cs = m ++ rest ∧ IsEmoteUrl m := by
    intro r2 hr m0 rest0 hm0 hm hrest
    subst hm hrest
    have e1 := dropLit_sound _ _ _ hr
    obtain ⟨e2, idRun, digits, ext, hm0eq, hne1, hall1, hne2, hall2, hext⟩ :=
      matchAfterScheme_sound hm0
    constructor
    · subst e1 e2
      simp [List.append_assoc]
    · refine ⟨true, idRun, digits, ext, hne1, hall1, hne2, hall2, hext, ?_⟩
      subst hm0eq
      rw [show ("https".data : List Char) = "http".data ++ ['s'] from rfl]
      simp [List.append_assoc]
  rw [matchEmoteAt] at h
  cases h1 : dropLit "https".data cs with
  | some r2 =>
    simp only [h1] at h
    cases h2 : matchAfterScheme r2 with
    | some p =>
      obtain ⟨m0, rest0⟩ := p
      simp only [h2, Option.some.injEq, Prod.mk.injEq] at h
      obtain ⟨rfl, rfl⟩ := h
      exact coreS r2 h1 m0 rest0 h2 rfl rfl
    | none =>
      simp only [h2] at h
      cases h3 : dropLit "http".data cs with
      | some r =>
        simp only [h3] at h
        cases h4 : matchAfterScheme r with
        | some p =>
          obtain ⟨m0, rest0⟩ := p
          simp only [h4, Option.some.injEq, Prod.mk.injEq] at h
          obtain ⟨rfl, rfl⟩ := h
          exact core r h3 m0 rest0 h4 rfl rfl
        | none => rw [h4] at h; cases h
      | none => rw [h3] at h; cases h
  | none =>
    simp only [h1] at h
    cases h3 : dropLit "http".data cs with
    | some r =>
      simp only [h3] at h
      cases h4 : matchAfterScheme r with
      | some p =>
        obtain ⟨m0, rest0⟩ := p
        simp only [h4, Option.some.injEq, Prod.mk.injEq] at h
        obtain ⟨rfl, rfl⟩ := h
        exact core r h3 m0 rest0 h4 rfl rfl
      | none => rw [h4] at h; cases h
    | none => rw [h3] at h; cases h

theorem matchEmoteAt_complete (m rest : List Char) (hm : IsEmoteUrl m) :
    matchEmoteAt (m ++ rest) = some (m, rest) := by
  obtain ⟨schemeS, idRun, digits, ext, hne1, hall1, hne2, hall2, hext, hmeq⟩ := hm
  have hall1m : ∀ c ∈ idRun, isAlnumAscii c = true := List.all_eq_true.mp hall1
  have hall2m : ∀ c ∈ digits, isDigitAscii c = true := List.all_eq_true.mp hall2
  cases schemeS with
  | true =>
    have hform : m ++ rest = "https".data ++ ("://cdn.7tv.app/emote/".data ++
        (idRun ++ ("/".data ++ (digits ++ ("x.".data ++ (ext ++ rest)))))) := by
      subst hmeq
      rw [show ("https".data : List Char) = "http".data ++ ['s'] from rfl]
      simp [List.append_assoc]
    rw [hform, matchEmoteAt]
    simp only [dropLit_self,
      matchAfterScheme_complete idRun digits ext rest hne1 hall1m hne2 hall2m hext,
      Option.some.injEq, Prod.mk.injEq]
    constructor
    · subst hmeq
      simp [List.append_assoc,
        show ("https".data : List Char) = ['h', 't', 't', 'p', 's'] from rfl,
        show ("http".data : List Char) = ['h', 't', 't', 'p'] from rfl]
    · trivial
  | false =>
    have hform : m ++ rest = "http".data ++ ("://cdn.7tv.app/emote/".data ++
        (idRun ++ ("/".data ++ (digits ++ ("x.".data ++ (ext ++ rest)))))) := by
      subst hmeq
      simp [List.append_assoc]
    have hnos : dropLit "https".data (m ++ rest) = none := by
      rw [hform,
        show ("http".data ++ ("://cdn.7tv.app/emote/".data ++
          (idRun ++ ("/".data ++ (digits ++ ("x.".data ++ (ext ++ rest)))))) : List Char) =
          'h' :: 't' :: 't' :: 'p' :: (':' :: ("//cdn.7tv.app/emote/".data ++
          (idRun ++ ("/".data ++ (digits ++ ("x.".data ++ (ext ++ rest))))))) from rfl,
        show ("https".data : List Char) = 'h' :: 't' :: 't' :: 'p' :: 's' :: [] from rfl]
      simp [dropLit]
    rw [matchEmoteAt, hnos]
    rw [hform]
    simp only [dropLit_self,
      matchAfterScheme_complete idRun digits ext rest hne1 hall1m hne2 hall2m hext,
      Option.some.injEq, Prod.mk.injEq]
    constructor
    · subst hmeq
      simp [List.append_assoc,
        show ("http".data : List Char) = ['h', 't', 't', 'p'] from rfl]
    · trivial

theorem alnum_of_digit {c : Char} (h : isDigitAscii c = true) : isAlnumAscii c = true := by
  unfold isDigitAscii at h
  unfold isAlnumAscii
  rw [h]
  simp

theorem safe_of_alnum {c : Char} (h : isAlnumAscii c = true) : urlSafeChar c = true := by
  simp [urlSafeChar, h]

theorem isEmoteUrl_ne_nil {m : List Char} (h : IsEmoteUrl m) : m ≠ [] := by
  obtain ⟨schemeS, idRun, digits, ext, _, _, _, _, _, hmeq⟩ := h
  subst hmeq
  intro hx
  simp [List.append_assoc, show ("http".data : List Char) = ['h', 't', 't', 'p'] from rfl]
    at hx

theorem isEmoteUrl_safe {m : List Char} (h : IsEmoteUrl m) :
    ∀ c ∈ m, urlSafeChar c = true := by
  obtain ⟨schemeS, idRun, digits, ext, _, hall1, _, hall2, hext, hmeq⟩ := h
  have hlit1 : ∀ c ∈ "http".data, urlSafeChar c = true := by decide
  have hlit2 : ∀ c ∈ "://cdn.7tv.app/emote/".data, urlSafeChar c = true := by decide
  have hlit3 : ∀ c ∈ "/".data, urlSafeChar c = true := by decide
  have hlit4 : ∀ c ∈ "x.".data, urlSafeChar c = true := by decide
  have hlitExt : ∀ c ∈ ext, urlSafeChar c = true := by
    rcases hext with rfl | rfl | rfl <;> decide
  have hid : ∀ c ∈ idRun, urlSafeChar c = true := fun c hc =>
    safe_of_alnum (List.all_eq_true.mp hall1 c hc)
  have hdig : ∀ c ∈ digits, urlSafeChar c = true := fun c hc =>
    safe_of_alnum (alnum_of_digit (List.all_eq_true.mp hall2 c hc))
  subst hmeq
  intro c hc
  simp only [List.append_assoc, List.mem_append] at hc
  rcases hc with hc | hc | hc | hc | hc | hc | hc
  · exact hlit1 c hc
  · cases schemeS with
    | true =>
      simp at hc
      subst hc
      decide
    | false => simp at hc
  · exact hlit2 c hc
  · exact hid c hc
  · exact hlit3 c hc
  · exact hdig c hc
  · rcases hc with hc | hc
    · exact hlit4 c hc
    · exact hlitExt c hc

theorem urlSafe_props {c : Char} (h : urlSafeChar c = true) :
    c ≠ '"' ∧ c ≠ '>' ∧ c ≠ '<' ∧ c ≠ '&' ∧ c ≠ nl := by
  refine ⟨?_, ?_, ?_, ?_, ?_⟩ <;> (rintro rfl; exact absurd h (by decide))

theorem findEmote_sound : ∀ (cs pre m r : List Char),
    findEmote cs = some (pre, m, r) →
    cs = pre ++ (m ++ r) ∧ matchEmoteAt (m ++ r) = some (m, r) ∧
      ∀ j, j < pre.length → matchEmoteAt (cs.drop j) = none := by
  intro cs
  induction cs with
  | nil => intro pre m r h; cases h
  | cons c rest ih =>
    intro pre m r h
    rw [findEmote] at h
    cases h0 : matchEmoteAt (c :: rest) with
    | some p =>
      obtain ⟨m0, r0⟩ := p
      simp only [h0, Option.some.injEq, Prod.mk.injEq] at h
      obtain ⟨rfl, rfl, rfl⟩ := h
      have hs := matchEmoteAt_sound h0
      refine ⟨by simpa using hs.1, ?_, ?_⟩
      · rw [← hs.1]
        exact h0
      · intro j hj
        simp at hj
    | none =>
      simp only [h0] at h
      cases h1 : findEmote rest with
      | some p =>
        obtain ⟨pre1, m1, r1⟩ := p
        simp only [h1, Option.some.injEq, Prod.mk.injEq] at h
        obtain ⟨rfl, rfl, rfl⟩ := h
        obtain ⟨e1, e2, e3⟩ := ih pre1 m1 r1 h1
        refine ⟨by simp [e1], e2, ?_⟩
        intro j hj
        cases j with
        | zero => simpa using h0
        | succ j =>
          simp only [List.drop_succ_cons]
          exact e3 j (by simpa using hj)
      | none => rw [h1] at h; cases h

theorem renderLoop_eq : ∀ (f1 f2 : Nat) (v : List Char),
    v.length ≤ f1 → v.length ≤ f2 → renderLoop f1 v = renderLoop f2 v := by
  intro f1
  induction f1 with
  | zero =>
    intro f2 v h1 _
    have : v = [] := List.length_eq_zero.mp (Nat.le_zero.mp h1)
    subst this
    cases f2 <;> rfl
  | succ f ih =>
    intro f2 v h1 h2
    cases f2 with
    | zero =>
      have : v = [] := List.length_eq_zero.mp (Nat.le_zero.mp h2)
      subst this
      rfl
    | succ f2 =>
      simp only [renderLoop]
      cases hf : findEmote v with
      | none => rfl
      | some p =>
        obtain ⟨pre, m, r⟩ := p
        obtain ⟨e1, e2, _⟩ := findEmote_sound v pre m r hf
        have hm : m ≠ [] := isEmoteUrl_ne_nil (matchEmoteAt_sound e2).2
        have hm1 : 0 < m.length := List.length_pos.mpr hm
        have hlen := congrArg List.length e1
        simp only [List.length_append] at hlen
        simp [ih f2 r (by omega) (by omega)]

theorem renderContentHtml_none {v : List Char} (h : findEmote v = none) :
    renderContentHtml v = escapeAndBreak v := by
  unfold renderContentHtml
  cases hl : v.length with
  | zero => rfl
  | succ n => simp [renderLoop, h]

theorem renderContentHtml_some {v pre m r : List Char}
    (h : findEmote v = some (pre, m, r)) :
    renderContentHtml v = escapeAndBreak pre ++ imgHtml m ++ renderContentHtml r := by
  obtain ⟨e1, e2, _⟩ := findEmote_sound v pre m r h
  have hm : m ≠ [] := isEmoteUrl_ne_nil (matchEmoteAt_sound e2).2
  have hm1 : 0 < m.length := List.length_pos.mpr hm
  have hlen := congrArg List.length e1
  simp only [List.length_append] at hlen
  unfold renderContentHtml
  cases hl : v.length with
  | zero => omega
  | succ n =>
    simp only [renderLoop, h]
    congr 1
    exact renderLoop_eq n r.length r (by omega) (by omega)

theorem serializeChildren_nil : serializeChildren [] = [] := rfl

theorem serializeChildren_cons (n : DomNode) (ns : List DomNode) :
    serializeChildren (n :: ns) = serializeEditorContent n ++ serializeChildren ns := rfl

theorem serialize_text (t : List Char) :
    serializeEditorContent (.text (some t)) = t := rfl

theorem serialize_br : serializeEditorContent (.element "BR" none []) = [nl] := by
  simp [serializeEditorContent]

theorem serialize_img (url : List Char) :
    serializeEditorContent (.element "IMG" (some url) []) = url := by
  simp [serializeEditorContent]

theorem dropWhile_head_not {p : Char → Bool} :
    ∀ (l : List Char) (c : Char) (t : List Char), l.dropWhile p = c :: t → p c = false := by
  intro l
  induction l with
  | nil => intro c t h; cases h
  | cons a l ih =>
    intro c t h
    by_cases hp : p a
    · rw [List.dropWhile_cons, if_pos hp] at h
      exact ih c t h
    · rw [List.dropWhile_cons, if_neg hp] at h
      obtain ⟨rfl, rfl⟩ := List.cons.injEq .. |>.mp h |>.imp id id
      simpa using hp

theorem escBrChar_nl : escBrChar nl = "<br/>".data := by
  simp [escBrChar]

theorem serialize_parse_escape : ∀ (n : Nat) (s ys : List Char), s.length ≤ n →
    (ys = [] ∨ ∃ t, ys = '<' :: t) →
    serializeChildren (parseRenderedHtml (escapeAndBreak s ++ ys)) =
      s ++ serializeChildren (parseRenderedHtml ys) := by
  intro n
  induction n with
  | zero =>
    intro s ys hs _
    have : s = [] := List.length_eq_zero.mp (Nat.le_zero.mp hs)
    subst this
    simp [escapeAndBreak_nil]
  | succ n ih =>
    intro s ys hs hys
    cases s with
    | nil => simp [escapeAndBreak_nil]
    | cons c s1 =>
      by_cases hc : c = nl
      · subst hc
        rw [escapeAndBreak_cons, escBrChar_nl, List.append_assoc,
          parse_br_step (escapeAndBreak s1 ++ ys), serializeChildren_cons, serialize_br,
          ih s1 ys (by simpa using hs) hys]
        simp
      · have hrun_ne : (c :: s1).takeWhile (fun d => decide (d ≠ nl)) ≠ [] := by
          rw [List.takeWhile_cons, if_pos (by simp [hc])]
          simp
        have hsplit : (c :: s1) =
            (c :: s1).takeWhile (fun d => decide (d ≠ nl)) ++
              (c :: s1).dropWhile (fun d => decide (d ≠ nl)) :=
          (List.takeWhile_append_dropWhile _ _).symm
        have hrun_nl : ∀ d ∈ (c :: s1).takeWhile (fun d => decide (d ≠ nl)), d ≠ nl := by
          intro d hd
          have := List.mem_takeWhile_imp hd
          simpa using this
        have hlen_run : 1 ≤ ((c :: s1).takeWhile (fun d => decide (d ≠ nl))).length := by
          cases hx : (c :: s1).takeWhile (fun d => decide (d ≠ nl)) with
          | nil => exact absurd hx hrun_ne
          | cons a t => simp
        have hlen_split := congrArg List.length hsplit
        simp only [List.length_append, List.length_cons] at hlen_split
        have hdrop_shape : (c :: s1).dropWhile (fun d => decide (d ≠ nl)) = [] ∨
            ∃ t, (c :: s1).dropWhile (fun d => decide (d ≠ nl)) = nl :: t := by
          cases hx : (c :: s1).dropWhile (fun d => decide (d ≠ nl)) with
          | nil => exact Or.inl rfl
          | cons a t =>
            right
            refine ⟨t, ?_⟩
            have := dropWhile_head_not _ a t hx
            simp only [decide_eq_false_iff_not, Decidable.not_not] at this
            rw [this]
        rw [hsplit, escapeAndBreak_append, List.append_assoc]
        rw [show escapeAndBreak ((c :: s1).takeWhile (fun d => decide (d ≠ nl))) =
            cmap escChar ((c :: s1).takeWhile (fun d => decide (d ≠ nl))) from by
          rw [escapeAndBreak_eq_cmap]
          exact cmap_escBr_eq_escChar hrun_nl]
        have hys2 : (escapeAndBreak ((c :: s1).dropWhile (fun d => decide (d ≠ nl))) ++ ys) = [] ∨
            ∃ t, (escapeAndBreak ((c :: s1).dropWhile (fun d => decide (d ≠ nl))) ++ ys) =
              '<' :: t := by
          rcases hdrop_shape with hx | ⟨t, hx⟩
          · rw [hx, escapeAndBreak_nil, List.nil_append]
            exact hys
          · rw [hx, escapeAndBreak_cons, escBrChar_nl]
            right
            exact ⟨_, rfl⟩
        rw [parse_text_step _ _ (cmap_escChar_ne_nil hrun_ne) (cmap_escChar_no_lt _) hys2,
          serializeChildren_cons, serialize_text, unescape_escape]
        have hb := dropWhile_cons_length (p := fun d => decide (d ≠ nl)) (c := c) s1 (by simp [hc])
        simp only [List.length_cons] at hs
        rw [ih ((c :: s1).dropWhile (fun d => decide (d ≠ nl))) ys (by omega) hys]
        rw [← List.append_assoc, ← hsplit]

theorem serialize_parse_render : ∀ (n : Nat) (v : List Char), v.length ≤ n →
    serializeChildren (parseRenderedHtml (renderContentHtml v)) = v := by
  intro n
  induction n with
  | zero =>
    intro v hv
    have : v = [] := List.length_eq_zero.mp (Nat.le_zero.mp hv)
    subst this
    rfl
  | succ n ih =>
    intro v hv
    cases hf : findEmote v with
    | none =>
      rw [renderContentHtml_none hf]
      have := serialize_parse_escape v.length v [] (le_refl _) (Or.inl rfl)
      simpa [parseRenderedHtml_nil, serializeChildren_nil] using this
    | some p =>
      obtain ⟨pre, m, r⟩ := p
      obtain ⟨e1, e2, _⟩ := findEmote_sound v pre m r hf
      have hurl : IsEmoteUrl m := (matchEmoteAt_sound e2).2
      have hm : m ≠ [] := isEmoteUrl_ne_nil hurl
      have hsafe := isEmoteUrl_safe hurl
      have hq : ∀ c ∈ m, c ≠ '"' := fun c hc => (urlSafe_props (hsafe c hc)).1
      have hg : ∀ c ∈ m, c ≠ '>' := fun c hc => (urlSafe_props (hsafe c hc)).2.1
      rw [renderContentHtml_some hf, List.append_assoc,
        serialize_parse_escape pre.length pre (imgHtml m ++ renderContentHtml r)
          (le_refl _) (Or.inr ⟨_, rfl⟩),
        parse_img_step m _ hq hg, serializeChildren_cons, serialize_img]
      have hm1 : 0 < m.length := List.length_pos.mpr hm
      have hlen := congrArg List.length e1
      simp only [List.length_append] at hlen
      rw [ih r (by omega)]
      exact e1.symm

theorem dropWhile_all_nil {p : Char → Bool} :
    ∀ (l : List Char), (∀ c ∈ l, p c = true) → l.dropWhile p = [] := by
  intro l
  induction l with
  | nil => intro _; rfl
  | cons c l ih =>
    intro h
    rw [List.dropWhile_cons, if_pos (h c (by simp))]
    exact ih (fun d hd => h d (by simp [hd]))

theorem all_of_dropWhile_nil {p : Char → Bool} :
    ∀ (l : List Char), l.dropWhile p = [] → ∀ c ∈ l, p c = true := by
  intro l
  induction l with
  | nil => intro _ c hc; cases hc
  | cons a l ih =>
    intro h c hc
    by_cases hp : p a
    · rw [List.dropWhile_cons, if_pos hp] at h
      rcases List.mem_cons.mp hc with rfl | hc
      · exact hp
      · exact ih h c hc
    · rw [List.dropWhile_cons, if_neg hp] at h
      cases h

theorem dropWhile_append_left {p : Char → Bool} :
    ∀ (xs ys : List Char), xs.dropWhile p ≠ [] →
      (xs ++ ys).dropWhile p = xs.dropWhile p ++ ys := by
  intro xs
  induction xs with
  | nil => intro ys h; exact absurd rfl h
  | cons a xs ih =>
    intro ys h
    by_cases hp : p a
    · rw [List.dropWhile_cons, if_pos hp] at h ⊢
      rw [List.cons_append, List.dropWhile_cons, if_pos hp]
      exact ih ys h
    · rw [List.dropWhile_cons, if_neg hp] at h ⊢
      rw [List.cons_append, List.dropWhile_cons, if_neg hp]

theorem strip_all_nl {l : List Char} (h : ∀ c ∈ l, c = nl) :
    stripTrailingNewlines l = [] := by
  unfold stripTrailingNewlines
  rw [dropWhile_all_nil]
  · rfl
  · intro c hc
    rw [List.mem_reverse] at hc
    simp [h c hc]

theorem strip_cons_of_not_all {c : Char} {rest : List Char}
    (h : ¬(c = nl ∧ ∀ d ∈ rest, d = nl)) :
    stripTrailingNewlines (c :: rest) = c :: stripTrailingNewlines rest := by
  unfold stripTrailingNewlines
  rw [List.reverse_cons]
  by_cases hall : ∀ d ∈ rest, d = nl
  · have hc : c ≠ nl := fun hx => h ⟨hx, hall⟩
    rw [dropWhile_append_of_all _ _ (by
      intro d hd
      rw [List.mem_reverse] at hd
      simp [hall d hd])]
    rw [dropWhile_head_false _ (by simp [hc]), dropWhile_all_nil _ (by
      intro d hd
      rw [List.mem_reverse] at hd
      simp [hall d hd])]
    simp
  · have hne : rest.reverse.dropWhile (fun x => x == nl) ≠ [] := by
      intro hx
      apply hall
      intro d hd
      have := all_of_dropWhile_nil _ hx d (by rwa [List.mem_reverse])
      simpa using this
    rw [dropWhile_append_left _ _ hne, List.reverse_append]
    simp

theorem replaceNlRun_eq_strip : ∀ (cs : List Char),
    replaceNlRunAtEnd cs = stripTrailingNewlines cs := by
  intro cs
  induction cs with
  | nil => rfl
  | cons c rest ih =>
    rw [replaceNlRunAtEnd]
    by_cases hb : (c = nl && rest.all fun d => d == nl) = true
    · rw [if_pos hb]
      simp only [Bool.and_eq_true, decide_eq_true_eq, List.all_eq_true, beq_iff_eq] at hb
      symm
      apply strip_all_nl
      intro d hd
      rcases List.mem_cons.mp hd with rfl | hd
      · exact hb.1
      · exact hb.2 d hd
    · rw [if_neg hb, ih]
      symm
      apply strip_cons_of_not_all
      intro ⟨h1, h2⟩
      apply hb
      simp only [Bool.and_eq_true, decide_eq_true_eq, List.all_eq_true, beq_iff_eq]
      exact ⟨h1, h2⟩

theorem strip_no_trailing {l : List Char} (h : l.getLast? ≠ some nl) :
    stripTrailingNewlines l = l := by
  unfold stripTrailingNewlines
  cases hr : l.reverse with
  | nil =>
    have : l = [] := by simpa using congrArg List.reverse hr
    subst this
    rfl
  | cons c t =>
    have hlast : l.getLast? = some c := by
      rw [← List.head?_reverse, hr]
      rfl
    have hc : c ≠ nl := by
      intro hx
      subst hx
      exact h hlast
    rw [dropWhile_head_false _ (by simp [hc]), ← hr, List.reverse_reverse]

theorem updateContent_eq_strip (children : List DomNode) :
    updateContentFromEditor children = stripTrailingNewlines (serializeChildren children) := by
  unfold updateContentFromEditor
  by_cases h : (serializeChildren children).getLast? = some nl
  · rw [if_pos h, replaceNlRun_eq_strip]
  · rw [if_neg h, strip_no_trailing h]

theorem ampEntityOnly_amp (t : List Char) :
    ampEntityOnly ("&amp;".data ++ t) = ampEntityOnly t := by
  have h1 : startsWithLit "amp;".data ('a' :: 'm' :: 'p' :: ';' :: t) = true := by
    rw [show ('a' :: 'm' :: 'p' :: ';' :: t : List Char) = "amp;".data ++ t from rfl,
      startsWithLit, dropLit_self]
    rfl
  rw [show ("&amp;".data ++ t : List Char) = '&' :: 'a' :: 'm' :: 'p' :: ';' :: t from rfl]
  simp [ampEntityOnly, entityHeaded, h1]

theorem ampEntityOnly_lt (t : List Char) :
    ampEntityOnly ("&lt;".data ++ t) = ampEntityOnly t := by
  have h1 : startsWithLit "lt;".data ('l' :: 't' :: ';' :: t) = true := by
    rw [show ('l' :: 't' :: ';' :: t : List Char) = "lt;".data ++ t from rfl,
      startsWithLit, dropLit_self]
    rfl
  rw [show ("&lt;".data ++ t : List Char) = '&' :: 'l' :: 't' :: ';' :: t from rfl]
  simp [ampEntityOnly, entityHeaded, h1]

theorem ampEntityOnly_gt (t : List Char) :
    ampEntityOnly ("&gt;".data ++ t) = ampEntityOnly t := by
  have h1 : startsWithLit "gt;".data ('g' :: 't' :: ';' :: t) = true := by
    rw [show ('g' :: 't' :: ';' :: t : List Char) = "gt;".data ++ t from rfl,
      startsWithLit, dropLit_self]
    rfl
  rw [show ("&gt;".data ++ t : List Char) = '&' :: 'g' :: 't' :: ';' :: t from rfl]
  simp [ampEntityOnly, entityHeaded, h1]

theorem ampEntityOnly_quot (t : List Char) :
    ampEntityOnly ("&quot;".data ++ t) = ampEntityOnly t := by
  have h1 : startsWithLit "quot;".data ('q' :: 'u' :: 'o' :: 't' :: ';' :: t) = true := by
    rw [show ('q' :: 'u' :: 'o' :: 't' :: ';' :: t : List Char) = "quot;".data ++ t from rfl,
      startsWithLit, dropLit_self]
    rfl
  rw [show ("&quot;".data ++ t : List Char) = '&' :: 'q' :: 'u' :: 'o' :: 't' :: ';' :: t
    from rfl]
  simp [ampEntityOnly, entityHeaded, h1]

theorem ampEntityOnly_apos (t : List Char) :
    ampEntityOnly ("&#039;".data ++ t) = ampEntityOnly t := by
  have h1 : startsWithLit "#039;".data ('#' :: '0' :: '3' :: '9' :: ';' :: t) = true := by
    rw [show ('#' :: '0' :: '3' :: '9' :: ';' :: t : List Char) = "#039;".data ++ t from rfl,
      startsWithLit, dropLit_self]
    rfl
  rw [show ("&#039;".data ++ t : List Char) = '&' :: '#' :: '0' :: '3' :: '9' :: ';' :: t
    from rfl]
  simp [ampEntityOnly, entityHeaded, h1]

theorem escape_amp_entity_only (v : List Char) :
    ampEntityOnly (cmap escChar v) = true := by
  induction v with
  | nil => rfl
  | cons c v ih =>
    rw [cmap_cons]
    by_cases h1 : c = '&'
    · subst h1
      rw [show escChar '&' = "&amp;".data from by decide, ampEntityOnly_amp, ih]
    by_cases h2 : c = '<'
    · subst h2
      rw [show escChar '<' = "&lt;".data from by decide, ampEntityOnly_lt, ih]
    by_cases h3 : c = '>'
    · subst h3
      rw [show escChar '>' = "&gt;".data from by decide, ampEntityOnly_gt, ih]
    by_cases h4 : c = '"'
    · subst h4
      rw [show escChar '"' = "&quot;".data from by decide, ampEntityOnly_quot, ih]
    by_cases h5 : c = apos
    · subst h5
      rw [show escChar apos = "&#039;".data from by decide, ampEntityOnly_apos, ih]
    · rw [show escChar c = [c] from by simp [escChar, h1, h2, h3, h4, h5]]
      rw [show ([c] ++ cmap escChar v : List Char) = c :: cmap escChar v from rfl]
      rw [show ampEntityOnly (c :: cmap escChar v) =
        ((if c = '&' then entityHeaded (cmap escChar v) else true) &&
          ampEntityOnly (cmap escChar v)) from rfl]
      rw [if_neg h1, ih]
      rfl

theorem escChar_no_raw (a : Char) :
    ∀ c ∈ escChar a, (!(c == '<' || c == '>' || c == '"' || c == apos)) = true := by
  intro c hc
  have hne := escChar_no_lt a c hc
  by_cases h1 : a = '&'
  · subst h1
    rw [show escChar '&' = ['&', 'a', 'm', 'p', ';'] from by decide] at hc
    simp at hc
    rcases hc with rfl | rfl | rfl | rfl | rfl <;> decide
  by_cases h2 : a = '<'
  · subst h2
    rw [show escChar '<' = ['&', 'l', 't', ';'] from by decide] at hc
    simp at hc
    rcases hc with rfl | rfl | rfl | rfl <;> decide
  by_cases h3 : a = '>'
  · subst h3
    rw [show escChar '>' = ['&', 'g', 't', ';'] from by decide] at hc
    simp at hc
    rcases hc with rfl | rfl | rfl | rfl <;> decide
  by_cases h4 : a = '"'
  · subst h4
    rw [show escChar '"' = ['&', 'q', 'u', 'o', 't', ';'] from by decide] at hc
    simp at hc
    rcases hc with rfl | rfl | rfl | rfl | rfl | rfl <;> decide
  by_cases h5 : a = apos
  · subst h5
    rw [show escChar apos = ['&', '#', '0', '3', '9', ';'] from by decide] at hc
    simp at hc
    rcases hc with rfl | rfl | rfl | rfl | rfl | rfl <;> decide
  · rw [show escChar a = [a] from by simp [escChar, h1, h2, h3, h4, h5]] at hc
    simp at hc
    subst hc
    simp [h2, h3, h4, h5]

theorem escape_no_raw (v : List Char) :
    noRawSpecialChars (cmap escChar v) = true := by
  rw [noRawSpecialChars, List.all_eq_true]
  induction v with
  | nil => intro c hc; cases hc
  | cons a v ih =>
    intro c hc
    rw [cmap_cons] at hc
    rcases List.mem_append.mp hc with h | h
    · exact escChar_no_raw a c h
    · exact ih c h

theorem strip_append_replicate {s : List Char} (k : Nat)
    (hlast : s.getLast? ≠ some nl) :
    stripTrailingNewlines (s ++ List.replicate k nl) = s := by
  unfold stripTrailingNewlines
  rw [List.reverse_append, List.reverse_replicate,
    dropWhile_append_of_all _ _ (by
      intro c hc
      rw [List.eq_of_mem_replicate hc]
      simp)]
  cases hr : s.reverse with
  | nil =>
    have : s = [] := by simpa using congrArg List.reverse hr
    subst this
    rfl
  | cons c t =>
    have hlastc : s.getLast? = some c := by
      rw [← List.head?_reverse, hr]
      rfl
    have hc : c ≠ nl := by
      intro hx
      subst hx
      exact hlast hlastc
    rw [dropWhile_head_false _ (by simp [hc]), ← hr, List.reverse_reverse]

theorem specSerializeAmendedChildren_cons (n : DomNode) (ns : List DomNode) :
    specSerializeAmendedChildren (n :: ns) =
      specSerializeAmended n ++ specSerializeAmendedChildren ns := rfl

theorem serialize_eq_amended_fuel : ∀ (k : Nat),
    (∀ node : DomNode, sizeOf node ≤ k →
      serializeEditorContent node = specSerializeAmended node) ∧
    (∀ ns : List DomNode, sizeOf ns ≤ k →
      serializeChildren ns = specSerializeAmendedChildren ns) := by
  intro k
  induction k with
  | zero =>
    constructor
    · intro node h
      exact absurd h (by cases node <;> simp)
    · intro ns h
      exact absurd h (by cases ns <;> simp)
  | succ k ih =>
    constructor
    · intro node h
      cases node with
      | text c => rfl
      | other => rfl
      | element tag url children =>
        have hch : sizeOf children ≤ k := by
          simp only [DomNode.element.sizeOf_spec] at h
          omega
        have hrec := ih.2 children hch
        by_cases h1 : tag = "IMG"
        · subst h1; rfl
        by_cases h2 : tag = "BR"
        · subst h2; rfl
        · simp only [serializeEditorContent, specSerializeAmended, if_neg h1, if_neg h2,
            hrec]
    · intro ns h
      cases ns with
      | nil => rfl
      | cons n ns =>
        have hsz : sizeOf n ≤ k ∧ sizeOf ns ≤ k := by
          simp only [List.cons.sizeOf_spec] at h
          constructor <;> omega
        rw [serializeChildren_cons, specSerializeAmendedChildren_cons, ih.1 n hsz.1,
          ih.2 ns hsz.2]

theorem tryColonAt_sound {cs q : List Char} (h : tryColonAt cs = some q) :
    cs = ':' :: q ∧ q.all isWordPlusChar = true := by
  unfold tryColonAt at h
  split at h
  · rename_i rest
    by_cases hall : rest.all isWordPlusChar
    · rw [if_pos hall] at h
      simp only [Option.some.injEq] at h
      subst h
      exact ⟨rfl, hall⟩
    · rw [if_neg hall] at h
      cases h
  · cases h

theorem emojiScan_sound : ∀ (cs : List Char) (b : Bool) (q : List Char),
    emojiScan b cs = some q →
    ∃ pre, cs = pre ++ ':' :: q ∧ q.all isWordPlusChar = true ∧
      ((b = true ∧ pre = []) ∨ ∃ p w, pre = p ++ [w] ∧ isJsWhitespace w = true) := by
  intro cs
  induction cs with
  | nil =>
    intro b q h
    rw [emojiScan] at h
    cases b <;> simp [tryColonAt] at h
  | cons c rest ih =>
    intro b q h
    rw [emojiScan] at h
    cases hb : b with
    | true =>
      subst hb
      cases h1 : tryColonAt (c :: rest) with
      | some q0 =>
        rw [if_pos rfl] at h
        rw [h1] at h
        simp only [Option.some.injEq] at h
        subst h
        obtain ⟨he, hall⟩ := tryColonAt_sound h1
        exact ⟨[], by simpa using he, hall, Or.inl ⟨rfl, rfl⟩⟩
      | none =>
        rw [if_pos rfl, h1] at h
        cases hw : isJsWhitespace c with
        | true =>
          rw [if_pos hw] at h
          cases h2 : tryColonAt rest with
          | some q0 =>
            rw [h2] at h
            simp only [Option.some.injEq] at h
            subst h
            obtain ⟨he, hall⟩ := tryColonAt_sound h2
            exact ⟨[c], by simp [he], hall, Or.inr ⟨[], c, rfl, hw⟩⟩
          | none =>
            rw [h2] at h
            obtain ⟨pre1, he, hall, hor⟩ := ih false q h
            rcases hor with ⟨hfalse, -⟩ | ⟨p, w, hp, hww⟩
            · cases hfalse
            · exact ⟨c :: pre1, by simp [he], hall,
                Or.inr ⟨c :: p, w, by simp [hp], hww⟩⟩
        | false =>
          rw [if_neg (by simp [hw])] at h
          obtain ⟨pre1, he, hall, hor⟩ := ih false q h
          rcases hor with ⟨hfalse, -⟩ | ⟨p, w, hp, hww⟩
          · cases hfalse
          · exact ⟨c :: pre1, by simp [he], hall,
              Or.inr ⟨c :: p, w, by simp [hp], hww⟩⟩
    | false =>
      subst hb
      rw [if_neg (by simp)] at h
      cases hw : isJsWhitespace c with
      | true =>
        rw [if_pos hw] at h
        cases h2 : tryColonAt rest with
        | some q0 =>
          rw [h2] at h
          simp only [Option.some.injEq] at h
          subst h
          obtain ⟨he, hall⟩ := tryColonAt_sound h2
          exact ⟨[c], by simp [he], hall, Or.inr ⟨[], c, rfl, hw⟩⟩
        | none =>
          rw [h2] at h
          obtain ⟨pre1, he, hall, hor⟩ := ih false q h
          rcases hor with ⟨hfalse, -⟩ | ⟨p, w, hp, hww⟩
          · cases hfalse
          · exact ⟨c :: pre1, by simp [he], hall,
              Or.inr ⟨c :: p, w, by simp [hp], hww⟩⟩
      | false =>
        rw [if_neg (by simp [hw])] at h
        obtain ⟨pre1, he, hall, hor⟩ := ih false q h
        rcases hor with ⟨hfalse, -⟩ | ⟨p, w, hp, hww⟩
        · cases hfalse
        · exact ⟨c :: pre1, by simp [he], hall,
            Or.inr ⟨c :: p, w, by simp [hp], hww⟩⟩

/-- C1: for every canonical text, serializing (through the browser
parse of the rendered markup) the markup produced by rendering the
text reproduces the text exactly, modulo the trailing-newline
stripping rule. -/
theorem claim_C1_round_trip (value : List Char) :
    updateContentFromEditor (parseRenderedHtml (renderContentHtml value)) =
      stripTrailingNewlines value := by
  rw [updateContent_eq_strip, serialize_parse_render value.length value (le_refl _)]

/-- C2 counterexample: the serializer does not equal the recursive
reference definition read literally from the claim, because an element
with a tag other than the four listed kinds, here a SPAN with a text
child, contributes its children rather than the empty string. -/
theorem claim_C2_counterexample :
    ¬ ∀ node : DomNode, serializeEditorContent node = specSerializeClaim node := fun h =>
  absurd (h (DomNode.element "SPAN" none [DomNode.text (some ['x'])])) (by decide)

/-- C2 amended: the serializer equals the reference definition once
the final bullet is amended so that an element with any other tag
contributes the concatenation of its children with no newline, and
only non-element non-text nodes contribute the empty string. -/
theorem claim_C2_serializer_amended (node : DomNode) :
    serializeEditorContent node = specSerializeAmended node :=
  (serialize_eq_amended_fuel (sizeOf node)).1 node (le_refl _)

/-- C3: the escaper equals the single-pass entity map, so that
entity-introducing replacements are never re-escaped, the output holds
no literal angle bracket, double quote or apostrophe, and every
ampersand in the output opens one of the five entities. -/
theorem claim_C3_escaper (value : List Char) :
    escapeHtml value = cmap escChar value ∧
    noRawSpecialChars (escapeHtml value) = true ∧
    ampEntityOnly (escapeHtml value) = true := by
  refine ⟨escapeHtml_eq_cmap value, ?_, ?_⟩
  · rw [escapeHtml_eq_cmap]
    exact escape_no_raw value
  · rw [escapeHtml_eq_cmap]
    exact escape_amp_entity_only value

/-- C4: a substring is matched by the emote matcher exactly when it
has the exact CDN emote shape; the scan takes non-overlapping
leftmost-first matches; a URL with the non-listed extension `jpg` is
escaped and emitted as plain text, never as an image placeholder,
while a listed extension renders as exactly an image tag. -/
theorem claim_C4_emote_detection :
    (∀ cs m rest : List Char, matchEmoteAt cs = some (m, rest) →
      cs = m ++ rest ∧ IsEmoteUrl m) ∧
    (∀ m rest : List Char, IsEmoteUrl m → matchEmoteAt (m ++ rest) = some (m, rest)) ∧
    (∀ cs pre m r : List Char, findEmote cs = some (pre, m, r) →
      cs = pre ++ (m ++ r) ∧ ∀ j, j < pre.length → matchEmoteAt (cs.drop j) = none) ∧
    renderContentHtml jpgUrl = escapeHtml jpgUrl ∧
    renderContentHtml "https://cdn.7tv.app/emote/abc123/4x.avif".data =
      imgHtml "https://cdn.7tv.app/emote/abc123/4x.avif".data := by
  refine ⟨fun cs m rest h => matchEmoteAt_sound h,
    fun m rest hm => matchEmoteAt_complete m rest hm,
    fun cs pre m r h =>
      ⟨(findEmote_sound cs pre m r h).1, (findEmote_sound cs pre m r h).2.2⟩,
    by decide, by decide⟩

/-- C4 witness: the matcher accepts a concrete well-formed emote URL
followed by arbitrary text, consuming exactly the URL. -/
theorem claim_C4_emote_detection_witness :
    matchEmoteAt ("https://cdn.7tv.app/emote/abc123/4x.avif".data ++ " tail".data) =
      some ("https://cdn.7tv.app/emote/abc123/4x.avif".data, " tail".data) :=
  claim_C4_emote_detection.2.1 _ _
    ⟨true, "abc123".data, "4".data, "avif".data, by decide, by decide, by decide,
      by decide, by decide, by decide⟩

/-- C5: top-level serialization concatenates the contributions of the
direct children of the root in order and strips all trailing newlines:
whenever the concatenation ends in k newlines after a newline-free
tail, all k are removed. -/
theorem claim_C5_top_level_strip (children : List DomNode) (s : List Char) (k : Nat)
    (hcat : serializeChildren children = s ++ List.replicate k nl)
    (hlast : s.getLast? ≠ some nl) :
    updateContentFromEditor children = s := by
  rw [updateContent_eq_strip, hcat, strip_append_replicate k hlast]

/-- C5 witness: a DIV line followed by two break elements serializes
to the line followed by three newlines, and the update strips all
three. -/
theorem claim_C5_witness :
    updateContentFromEditor [DomNode.element "DIV" none [DomNode.text (some ['a'])],
      DomNode.element "BR" none [], DomNode.element "BR" none []] = ['a'] :=
  claim_C5_top_level_strip _ ['a'] 3 (by decide) (by decide)

/-- C6: when submit is invoked twice in succession while the first
send has not resolved, the second invocation is rejected at the entry
point by the in-flight flag, so exactly one external send occurs and
the state is unchanged by the second call. -/
theorem claim_C6_submission_guard (pk : Option (List Char)) (st : ComposeState)
    (h1 : st.isSubmitting = false) (h2 : (jsTrim st.content).isEmpty = false)
    (h3 : pk.isSome = true) :
    (handlePostEnter pk st).2 + (handlePostEnter pk (handlePostEnter pk st).1).2 = 1 ∧
    handlePostEnter pk (handlePostEnter pk st).1 = ((handlePostEnter pk st).1, 0) := by
  have hg : postGuard pk st = true := by
    simp [postGuard, h1, h2, h3]
  have hfst : handlePostEnter pk st = ({ st with isSubmitting := true }, 1) := by
    rw [handlePostEnter, if_pos hg]
  have hg2 : postGuard pk { st with isSubmitting := true } = false := by
    simp [postGuard]
  have hsnd : handlePostEnter pk { st with isSubmitting := true } =
      ({ st with isSubmitting := true }, 0) := by
    rw [handlePostEnter, if_neg (by simp [hg2])]
  constructor
  · rw [hfst]
    show 1 + (handlePostEnter pk { st with isSubmitting := true }).2 = 1
    rw [hsnd]
    rfl
  · rw [hfst]
    show handlePostEnter pk { st with isSubmitting := true } =
      ({ st with isSubmitting := true }, 0)
    exact hsnd

/-- C6 witness: a concrete quiescent state with nonblank content and a
key present sends exactly once under a double submit. -/
theorem claim_C6_witness :
    (handlePostEnter (some ['k']) ⟨"hi".data, false, []⟩).2 +
      (handlePostEnter (some ['k'])
        (handlePostEnter (some ['k']) ⟨"hi".data, false, []⟩).1).2 = 1 :=
  (claim_C6_submission_guard (some ['k']) ⟨"hi".data, false, []⟩ rfl (by decide) rfl).1

/-- C7: a failure thrown by the external sender is caught, an error
toast carrying the message of the failure or a generic fallback is
surfaced, content and validated mentions are left unchanged, and on
every exit of a quiescent-entry invocation the in-flight flag ends up
cleared. -/
theorem claim_C7_failure_handling (pk : Option (List Char)) (hide : Bool)
    (st : ComposeState) (outcome : SendOutcome) (msg : Option (List Char)) :
    (postGuard pk st = true →
      (handlePost pk hide (SendOutcome.failure msg) st).1.content = st.content ∧
      (handlePost pk hide (SendOutcome.failure msg) st).1.validatedMentions =
        st.validatedMentions ∧
      (handlePost pk hide (SendOutcome.failure msg) st).1.isSubmitting = false ∧
      (handlePost pk hide (SendOutcome.failure msg) st).2.1 =
        [Notification.errorToast (msg.getD unknownErrorMsg)]) ∧
    (st.isSubmitting = false →
      (handlePost pk hide outcome st).1.isSubmitting = false) := by
  constructor
  · intro hg
    unfold handlePost
    rw [if_pos hg]
    exact ⟨rfl, rfl, rfl, rfl⟩
  · intro h0
    unfold handlePost
    by_cases hg : postGuard pk st = true
    · rw [if_pos hg]
      cases outcome <;> rfl
    · rw [if_neg hg]
      exact h0

/-- C7 witness: on a concrete failing send the flag is cleared, the
content is kept and the toast carries the thrown message. -/
theorem claim_C7_witness :
    (handlePost (some ['k']) false (SendOutcome.failure (some "boom".data))
      ⟨"hi".data, false, []⟩).1.isSubmitting = false ∧
    (handlePost (some ['k']) false (SendOutcome.failure (some "boom".data))
      ⟨"hi".data, false, []⟩).1.content = "hi".data ∧
    (handlePost (some ['k']) false (SendOutcome.failure (some "boom".data))
      ⟨"hi".data, false, []⟩).2.1 = [Notification.errorToast "boom".data] := by
  have h := (claim_C7_failure_handling (some ['k']) false ⟨"hi".data, false, []⟩
    (SendOutcome.failure (some "boom".data)) (some "boom".data)).1 (by decide)
  exact ⟨h.2.2.1, h.1, h.2.2.2⟩

/-- C8: content without an at sign immediately yields an empty
validated set with no validator call; content with an at sign has
every extracted candidate validated sequentially in order, failures
silently dropped, and the surviving keys fully replace the set. -/
theorem claim_C8_mention_gating (detect : List Char → List (List Char))
    (validate : List Char → Option (List Char)) (content : List Char) :
    (content.contains '@' = false → mentionEffect detect validate content = ([], 0)) ∧
    (content.contains '@' = true →
      mentionEffect detect validate content =
        ((detect content).filterMap validate, (detect content).length)) := by
  have hloop : ∀ ms : List (List Char),
      validateMentionsLoop validate ms = (ms.filterMap validate, ms.length) := by
    intro ms
    induction ms with
    | nil => rfl
    | cons m ms ih =>
      simp only [validateMentionsLoop, ih]
      cases hv : validate m <;> simp [List.filterMap_cons, hv]
  constructor
  · intro h
    unfold mentionEffect
    rw [if_neg (by rw [h]; simp)]
  · intro h
    unfold mentionEffect
    rw [if_pos h, hloop]

/-- C8 witness: a concrete text without an at sign clears the set with
no validator call, and one with two candidates validates both in
order. -/
theorem claim_C8_witness :
    mentionEffect (fun _ => [['a']]) (fun _ => none) "hi".data = ([], 0) ∧
    mentionEffect (fun _ => [['a'], ['b']]) (fun s => some s) "@a @b".data =
      ([['a'], ['b']], 2) := by
  constructor
  · exact (claim_C8_mention_gating _ _ _).1 (by decide)
  · rw [(claim_C8_mention_gating (fun _ => [['a'], ['b']]) (fun s => some s)
      "@a @b".data).2 (by decide)]
    rfl

/-- C9: emoji query extraction takes the caret text node substring up
to the caret, matches the colon-query pattern anchored at the end with
start-of-text or whitespace before the colon, yields `sma` for
`hello :sma` with the caret at the end, yields nothing for `hellosma`
or `hello:sma`, clears on an empty captured run, and every successful
extraction decomposes the inspected substring accordingly. -/
theorem claim_C9_emoji_query :
    updateEmojiQueryFromSelection (some ("hello :sma".data, 10)) =
      ⟨"sma".data, some (6, 10)⟩ ∧
    updateEmojiQueryFromSelection (some ("hellosma".data, 8)) = ⟨[], none⟩ ∧
    updateEmojiQueryFromSelection (some ("hello:sma".data, 9)) = ⟨[], none⟩ ∧
    updateEmojiQueryFromSelection (some ("hello :".data, 7)) = ⟨[], none⟩ ∧
    updateEmojiQueryFromSelection none = ⟨[], none⟩ ∧
    (∀ (text : List Char) (off : Nat) (q : List Char) (s e : Nat),
      updateEmojiQueryFromSelection (some (text, off)) = ⟨q, some (s, e)⟩ →
      q ≠ [] ∧ e = off ∧ s = off - q.length - 1 ∧
      ∃ pre, text.take off = pre ++ ':' :: q ∧ q.all isWordPlusChar = true ∧
        (pre = [] ∨ ∃ p w, pre = p ++ [w] ∧ isJsWhitespace w = true)) := by
  refine ⟨by decide, by decide, by decide, by decide, rfl, ?_⟩
  intro text off q s e h
  simp only [updateEmojiQueryFromSelection] at h
  cases hs : emojiScan true (text.take off) with
  | none =>
    simp only [hs] at h
    simp only [EmojiQueryState.mk.injEq] at h
    exact absurd h.2 (by simp)
  | some q0 =>
    simp only [hs] at h
    by_cases hq0 : q0 = []
    · rw [if_pos hq0] at h
      simp only [EmojiQueryState.mk.injEq] at h
      exact absurd h.2 (by simp)
    · rw [if_neg hq0] at h
      simp only [EmojiQueryState.mk.injEq, Option.some.injEq, Prod.mk.injEq] at h
      obtain ⟨rfl, hse⟩ := h
      obtain ⟨hs', he'⟩ := hse
      subst hs' he'
      obtain ⟨pre, hdecomp, hall, hor⟩ := emojiScan_sound (text.take off) true q0 hs
      refine ⟨hq0, rfl, rfl, pre, hdecomp, hall, ?_⟩
      rcases hor with ⟨-, hpre⟩ | hx
      · exact Or.inl hpre
      · exact Or.inr hx

/-- C9 witness: the successful extraction on `hello :sma` with the
caret at offset ten decomposes the substring with the query `sma`
after a whitespace-preceded colon. -/
theorem claim_C9_witness :
    "sma".data ≠ [] ∧ (10 : Nat) = 10 ∧ (6 : Nat) = 10 - "sma".data.length - 1 ∧
      ∃ pre, "hello :sma".data.take 10 = pre ++ ':' :: "sma".data ∧
        "sma".data.all isWordPlusChar = true ∧
        (pre = [] ∨ ∃ p w, pre = p ++ [w] ∧ isJsWhitespace w = true) :=
  claim_C9_emoji_query.2.2.2.2.2 "hello :sma".data 10 "sma".data 6 10 (by decide)

/-- C10: with blank content or no private key, submit performs no
external send and changes no state: content, mentions and the
in-flight flag keep their values and no toast is shown. -/
theorem claim_C10_submit_noop (pk : Option (List Char)) (hide : Bool)
    (outcome : SendOutcome) (st : ComposeState)
    (h : jsTrim st.content = [] ∨ pk = none) :
    handlePost pk hide outcome st = (st, [], 0) := by
  have hg : ¬ postGuard pk st = true := by
    rcases h with h | h <;> simp [postGuard, h]
  unfold handlePost
  rw [if_neg hg]

/-- C10 witness: a concrete state with content but no key is returned
unchanged with no send and no toast. -/
theorem claim_C10_witness :
    handlePost none true SendOutcome.noResult ⟨"hello".data, false, []⟩ =
      (⟨"hello".data, false, []⟩, [], 0) :=
  claim_C10_submit_noop none true SendOutcome.noResult _ (Or.inr rfl)
